import Mathlib

/-!
Verification development for the configtree-parser repository.

The embedding models `ConfigTree` (configtree.hh) and
`ConfigTreeParser::readINITree` (configtreeparser.hh).  C++ strings are
modelled as lists of characters, `std::map` as association lists kept in
sorted key order, exceptions as `Except Err`, and formatted stream
extraction (`operator>>` on `std::istringstream`) as an explicit
extraction function returning the value, the remaining input and the
fail/eof flags.
-/

namespace CTP

/-- Strings are modelled as lists of characters. -/
abbrev Str := List Char

/-- Bridge from Lean string literals to the model's strings. -/
def str (s : String) : Str := s.data

/-- The whitespace set used by the trim and split helpers in the source,
namely the characters of the C++ literal given to find_first_not_of. -/
def isWs (c : Char) : Bool := c = ' ' || c = '\t' || c = '\n' || c = '\r'

/-- The whitespace set skipped by formatted stream extraction
(std::isspace in the classic locale). -/
def isSpaceC (c : Char) : Bool :=
  c = ' ' || c = '\t' || c = '\n' || c = '\x0b' || c = '\x0c' || c = '\r'

/-- ConfigTree::ltrim / ConfigTreeParser::ltrim: drop the longest
whitespace run at the front (substr from find_first_not_of). -/
def ltrim : Str → Str
  | [] => []
  | c :: cs => if isWs c then ltrim cs else c :: cs

/-- ConfigTree::rtrim / ConfigTreeParser::rtrim: drop the longest
whitespace run at the back (substr up to find_last_not_of). -/
def rtrim (s : Str) : Str := (ltrim s.reverse).reverse

/-- Worker for ConfigTree::split; cur holds the reversed current token. -/
def splitWsAux (cur : Str) : Str → List Str
  | [] => if cur.isEmpty then [] else [cur.reverse]
  | c :: cs =>
    if isWs c then
      if cur.isEmpty then splitWsAux [] cs else cur.reverse :: splitWsAux [] cs
    else splitWsAux (c :: cur) cs

/-- ConfigTree::split: the whitespace-delimited tokens of the string,
maximal runs of non-whitespace characters, empty runs dropped. -/
def splitWs (s : Str) : List Str := splitWsAux [] s

/-- Error values for every throw site reachable in the modelled code.
The C++ code distinguishes the cases only by the text of the
std::range_error message; each constructor carries the data interpolated
into the corresponding message. -/
inductive Err where
  | collision (k : Str)
  | notFoundKey (k pfx : Str)
  | notFoundSub (k pfx : Str)
  | parseAs (ty : Str)
  | rangeItems (n : Nat)
  | rangeMore (n : Nat)
  | cannotParse (k : Str) (inner : Err)
  | duplicateKey (k src : Str)
  | emptyQuoteRead
  | outOfFuel
  deriving DecidableEq

instance instDecEqExcept {ε α : Type} [DecidableEq ε] [DecidableEq α] :
    DecidableEq (Except ε α) := fun a b =>
  match a, b with
  | Except.ok x, Except.ok y =>
    if h : x = y then Decidable.isTrue (congrArg Except.ok h)
    else Decidable.isFalse (fun hh => h (Except.ok.inj hh))
  | Except.error x, Except.error y =>
    if h : x = y then Decidable.isTrue (congrArg Except.error h)
    else Decidable.isFalse (fun hh => h (Except.error.inj hh))
  | Except.ok _, Except.error _ => Decidable.isFalse (fun hh => Except.noConfusion hh)
  | Except.error _, Except.ok _ => Decidable.isFalse (fun hh => Except.noConfusion hh)

/-- Numeric value of a digit run, most significant digit first. -/
def digitsToNat (ds : Str) : Nat := ds.foldl (fun a d => a * 10 + (d.toNat - 48)) 0

/-- One formatted extraction of an integer from a string stream, the model
of std::istringstream followed by operator>> into an integer variable:
skip leading whitespace, take an optional sign and then the maximal digit
run.  Returns the extracted value (none iff failbit would be set), the
remaining input, the failbit, and the eofbit; the eofbit is set exactly
when the extraction reached the end of the input during its attempt. -/
def extractInt (cs : Str) : Option Int × Str × Bool × Bool :=
  let s := cs.dropWhile isSpaceC
  match s with
  | [] => (none, [], true, true)
  | c :: cs' =>
    let neg := c = '-'
    let signed := c = '-' || c = '+'
    let s1 := if signed then cs' else c :: cs'
    let digits := s1.takeWhile Char.isDigit
    let rest := s1.dropWhile Char.isDigit
    if digits.isEmpty then (none, rest, true, s1.isEmpty)
    else
      let v : Int := Int.ofNat (digitsToNat digits)
      (some (if neg then -v else v), rest, false, rest.isEmpty)

/-- Parser specialized at an integer type (the generic Parser template):
extract a value, then require the following dummy extraction to fail with
the eof flag set. -/
def parseIntC (s : Str) : Except Err Int :=
  match extractInt s with
  | (none, _, _, _) => Except.error (Err.parseAs (str "int"))
  | (some v, rest, _, _) =>
    match extractInt rest with
    | (_, _, fail2, eof2) =>
      if !fail2 || !eof2 then Except.error (Err.parseAs (str "int")) else Except.ok v

/-- The character mapping of Parser of bool's ToLower functor
(std::tolower in the classic locale). -/
def toLowerC (c : Char) : Char :=
  if 'A' ≤ c && c ≤ 'Z' then Char.ofNat (c.toNat + 32) else c

/-- Parser specialized at bool: lowercase the whole string, compare with
the four literals, otherwise fall back to the integer parser and test the
result against zero. -/
def parseBoolC (s : Str) : Except Err Bool :=
  let ret := s.map toLowerC
  if ret = str "yes" || ret = str "true" then Except.ok true
  else if ret = str "no" || ret = str "false" then Except.ok false
  else (parseIntC ret).map (fun v => v != 0)

/-- Worker for ConfigTree::parseRange: k further extractions are pending,
done have succeeded so far, total is the arity of the range. -/
def parseRangeIntAux (total : Nat) : Nat → Str → Nat → Except Err (List Int)
  | 0, s, _ =>
    match extractInt s with
    | (_, _, fail2, eof2) =>
      if !fail2 || !eof2 then Except.error (Err.rangeMore total) else Except.ok []
  | k + 1, s, done =>
    match extractInt s with
    | (none, _, _, _) => Except.error (Err.rangeItems done)
    | (some v, rest, _, _) => (parseRangeIntAux total k rest (done + 1)).map (v :: ·)

/-- ConfigTree::parseRange over a range of n integer slots: n stream
extractions, then a dummy extraction that must fail at end of input. -/
def parseRangeInt (n : Nat) (s : Str) : Except Err (List Int) := parseRangeIntAux n n s 0

/-- Parser specialized at std::array of n integer elements: default
construct the array and fill it with parseRange. -/
def parseArrayInt (n : Nat) (s : Str) : Except Err (List Int) := parseRangeInt n s

/-! Helper lemmas about the character classes and the splitting helpers. -/

theorem isWs_isSpaceC {c : Char} (h : isWs c = true) : isSpaceC c = true := by
  simp only [isWs, Bool.or_eq_true, decide_eq_true_eq] at h
  rcases h with ((h | h) | h) | h <;> subst h <;> decide

theorem isWs_not_digit {c : Char} (h : isWs c = true) : c.isDigit = false := by
  simp only [isWs, Bool.or_eq_true, decide_eq_true_eq] at h
  rcases h with ((h | h) | h) | h <;> subst h <;> decide

theorem digit_not_isSpaceC {c : Char} (h : c.isDigit = true) : isSpaceC c = false := by
  by_contra hc
  simp only [Bool.not_eq_false, isSpaceC, Bool.or_eq_true, decide_eq_true_eq] at hc
  rcases hc with ((((h' | h') | h') | h') | h') | h' <;> subst h' <;> simp at h

theorem digit_not_isWs {c : Char} (h : c.isDigit = true) : isWs c = false := by
  by_contra hc
  simp only [Bool.not_eq_false] at hc
  rw [isWs_not_digit hc] at h
  exact Bool.false_ne_true h

theorem digit_not_sign {c : Char} (h : c.isDigit = true) :
    (c = '-' || c = '+') = false := by
  by_contra hc
  simp only [Bool.not_eq_false, Bool.or_eq_true, decide_eq_true_eq] at hc
  rcases hc with h' | h' <;> subst h' <;> simp at h

theorem mem_takeWhile_prop {p : Char → Bool} :
    ∀ {l : Str} {a : Char}, a ∈ l.takeWhile p → p a = true := by
  intro l
  induction l with
  | nil => intro a h; simp at h
  | cons c t ih =>
    intro a h
    by_cases hp : p c = true
    · rw [List.takeWhile_cons_of_pos hp] at h
      rcases List.mem_cons.mp h with h | h
      · subst h; exact hp
      · exact ih h
    · rw [List.takeWhile_cons_of_neg hp] at h
      simp at h

theorem mem_of_mem_takeWhile {p : Char → Bool} :
    ∀ {l : Str} {a : Char}, a ∈ l.takeWhile p → a ∈ l := by
  intro l
  induction l with
  | nil => intro a h; simp at h
  | cons c t ih =>
    intro a h
    by_cases hp : p c = true
    · rw [List.takeWhile_cons_of_pos hp] at h
      rcases List.mem_cons.mp h with h | h
      · subst h; exact List.mem_cons_self _ _
      · exact List.mem_cons_of_mem c (ih h)
    · rw [List.takeWhile_cons_of_neg hp] at h
      simp at h

theorem mem_of_mem_dropWhile {p : Char → Bool} :
    ∀ {l : Str} {a : Char}, a ∈ l.dropWhile p → a ∈ l := by
  intro l
  induction l with
  | nil => intro a h; simp at h
  | cons c t ih =>
    intro a h
    by_cases hp : p c = true
    · rw [List.dropWhile_cons_of_pos hp] at h
      exact List.mem_cons_of_mem c (ih h)
    · rw [List.dropWhile_cons_of_neg hp] at h
      exact h

theorem dropWhile_head_false {p : Char → Bool} :
    ∀ {l : Str} {c : Char} {cs : Str}, l.dropWhile p = c :: cs → p c = false := by
  intro l
  induction l with
  | nil => intro c cs h; simp at h
  | cons c' t ih =>
    intro c cs h
    by_cases hp : p c' = true
    · rw [List.dropWhile_cons_of_pos hp] at h
      exact ih h
    · rw [List.dropWhile_cons_of_neg hp] at h
      cases h
      simpa using hp

theorem dropWhile_spaceC_eq_ws {s : Str}
    (H : ∀ c ∈ s, isWs c = true ∨ c.isDigit = true) :
    s.dropWhile isSpaceC = s.dropWhile isWs := by
  induction s with
  | nil => rfl
  | cons c t ih =>
    rcases H c (List.mem_cons_self c t) with hw | hd
    · rw [List.dropWhile_cons_of_pos (isWs_isSpaceC hw), List.dropWhile_cons_of_pos hw]
      exact ih (fun x hx => H x (List.mem_cons_of_mem c hx))
    · rw [List.dropWhile_cons_of_neg (by simp [digit_not_isSpaceC hd]),
        List.dropWhile_cons_of_neg (by simp [digit_not_isWs hd])]

theorem splitWs_ws_head {c : Char} {s : Str} (h : isWs c = true) :
    splitWs (c :: s) = splitWs s := by
  simp [splitWs, splitWsAux, h, List.isEmpty]

theorem splitWs_dropWhile_ws (s : Str) : splitWs s = splitWs (s.dropWhile isWs) := by
  induction s with
  | nil => rfl
  | cons c t ih =>
    by_cases hw : isWs c = true
    · rw [splitWs_ws_head hw, List.dropWhile_cons_of_pos hw, ih]
    · rw [List.dropWhile_cons_of_neg hw]

theorem splitWsAux_token :
    ∀ (tok : Str) (cur rest : Str), (∀ c ∈ tok, isWs c = false) →
      splitWsAux cur (tok ++ rest) = splitWsAux (tok.reverse ++ cur) rest := by
  intro tok
  induction tok with
  | nil => intro cur rest _; rfl
  | cons c t ih =>
    intro cur rest h
    have hc : isWs c = false := h c (List.mem_cons_self c t)
    simp only [List.cons_append, splitWsAux, hc, Bool.false_eq_true, if_false]
    rw [show t.append rest = t ++ rest from rfl,
      ih (c :: cur) rest (fun x hx => h x (List.mem_cons_of_mem c hx))]
    simp

/-- Agreement of takeWhile and dropWhile for the digit test and the
non-whitespace test on strings whose characters are whitespace or digits. -/
theorem take_drop_digit_eq {s : Str}
    (H : ∀ c ∈ s, isWs c = true ∨ c.isDigit = true) :
    s.takeWhile Char.isDigit = s.takeWhile (fun c => !isWs c) ∧
      s.dropWhile Char.isDigit = s.dropWhile (fun c => !isWs c) := by
  induction s with
  | nil => exact ⟨rfl, rfl⟩
  | cons c t ih =>
    rcases H c (List.mem_cons_self c t) with hw | hd
    · constructor <;>
        simp [List.takeWhile, List.dropWhile, hw, isWs_not_digit hw]
    · have iht := ih (fun x hx => H x (List.mem_cons_of_mem c hx))
      constructor <;>
        simp [List.takeWhile, List.dropWhile, hd, digit_not_isWs hd, iht.1, iht.2]

/-- Splitting off the first token: on a string with a non-whitespace head,
split yields the maximal non-whitespace run followed by the split of the
remainder. -/
theorem splitWs_nonws_head {c : Char} {cs' : Str} (hc : isWs c = false) :
    splitWs (c :: cs') =
      (c :: cs').takeWhile (fun x => !isWs x) ::
        splitWs ((c :: cs').dropWhile (fun x => !isWs x)) := by
  have htok : (c :: cs').takeWhile (fun x => !isWs x) = c :: cs'.takeWhile (fun x => !isWs x) := by
    simp [List.takeWhile, hc]
  have hdecomp : (c :: cs').takeWhile (fun x => !isWs x) ++ (c :: cs').dropWhile (fun x => !isWs x) = c :: cs' :=
    List.takeWhile_append_dropWhile _ _
  have hstep : splitWs (c :: cs') =
      splitWsAux (((c :: cs').takeWhile (fun x => !isWs x)).reverse ++ [])
        ((c :: cs').dropWhile (fun x => !isWs x)) := by
    conv_lhs => rw [splitWs, ← hdecomp]
    exact splitWsAux_token _ [] _ (fun x hx => by
      have := mem_takeWhile_prop hx
      simpa using this)
  rw [hstep, List.append_nil]
  rcases hrem : (c :: cs').dropWhile (fun x => !isWs x) with _ | ⟨d, rem'⟩
  · rw [splitWsAux]
    simp [htok, splitWs, splitWsAux]
  · have hd : isWs d = true := by
      have := dropWhile_head_false (p := fun x => !isWs x) hrem
      simpa using this
    rw [splitWsAux]
    simp only [hd, if_true]
    rw [splitWs_ws_head hd]
    simp [htok, splitWs]

/-- On a string whose characters are whitespace or digits, one stream
extraction takes exactly the first whitespace-delimited token. -/
theorem extract_tokens (s : Str)
    (H : ∀ c ∈ s, isWs c = true ∨ c.isDigit = true) :
    (splitWs s = [] ∧ extractInt s = (none, [], true, true)) ∨
    (∃ t ts rest, splitWs s = t :: ts ∧
      extractInt s = (some (Int.ofNat (digitsToNat t)), rest, false, rest.isEmpty) ∧
      splitWs rest = ts ∧ ∀ c ∈ rest, isWs c = true ∨ c.isDigit = true) := by
  have hdw : s.dropWhile isSpaceC = s.dropWhile isWs := dropWhile_spaceC_eq_ws H
  rcases hs' : s.dropWhile isWs with _ | ⟨c, cs'⟩
  · left
    constructor
    · rw [splitWs_dropWhile_ws, hs']
      rfl
    · rw [extractInt, hdw, hs']
  · right
    have hcmem : c ∈ s := mem_of_mem_dropWhile (p := isWs) (by rw [hs']; exact List.mem_cons_self c cs')
    have hcw : isWs c = false := dropWhile_head_false (p := isWs) hs'
    have hcd : c.isDigit = true := by
      rcases H c hcmem with h | h
      · rw [h] at hcw; exact absurd hcw (by simp)
      · exact h
    have Hs' : ∀ x ∈ c :: cs', isWs x = true ∨ x.isDigit = true := by
      intro x hx
      exact H x (mem_of_mem_dropWhile (p := isWs) (by rw [hs']; exact hx))
    have htd := take_drop_digit_eq Hs'
    have htke : (c :: cs').takeWhile Char.isDigit = c :: cs'.takeWhile Char.isDigit := by
      simp [List.takeWhile, hcd]
    have hsign : (decide (c = '-') || decide (c = '+')) = false := digit_not_sign hcd
    have hnegf : (decide (c = '-')) = false := by
      rcases Bool.or_eq_false_iff.mp hsign with ⟨h1, _⟩
      exact h1
    refine ⟨(c :: cs').takeWhile Char.isDigit, splitWs ((c :: cs').dropWhile Char.isDigit),
      (c :: cs').dropWhile Char.isDigit, ?_, ?_, rfl, ?_⟩
    · rw [splitWs_dropWhile_ws, hs', splitWs_nonws_head hcw, htd.1, htd.2]
    · have hplus : (decide (c = '+')) = false := (Bool.or_eq_false_iff.mp hsign).2
      have hminus : ¬ (c = '-') := by simpa using hnegf
      rw [extractInt, hdw, hs']
      simp only [hnegf, hplus, Bool.or_self, Bool.false_eq_true, if_false, htke,
        List.isEmpty_cons, if_neg hminus]
    · intro x hx
      exact Hs' x (mem_of_mem_dropWhile (p := Char.isDigit) hx)

/-- On a string of whitespace and digit characters, a token count different
from the number of slots always makes parseRange fail. -/
theorem parseRange_token_arity :
    ∀ (n total done : Nat) (s : Str), (∀ c ∈ s, isWs c = true ∨ c.isDigit = true) →
      (splitWs s).length ≠ n → ∃ e, parseRangeIntAux total n s done = Except.error e := by
  intro n
  induction n with
  | zero =>
    intro total done s H hne
    rcases extract_tokens s H with ⟨hsp, hex⟩ | ⟨t, ts, rest, hsp, hex, _, _⟩
    · rw [hsp] at hne; simp at hne
    · refine ⟨Err.rangeMore total, ?_⟩
      rw [parseRangeIntAux, hex]
      rfl
  | succ k ih =>
    intro total done s H hne
    rcases extract_tokens s H with ⟨hsp, hex⟩ | ⟨t, ts, rest, hsp, hex, hrest, Hrest⟩
    · refine ⟨Err.rangeItems done, ?_⟩
      rw [parseRangeIntAux, hex]
    · have hts : ts.length ≠ k := by
        intro hk
        exact hne (by rw [hsp, List.length_cons, hk])
      rcases ih total (done + 1) rest Hrest (by rw [hrest]; exact hts) with ⟨e, he⟩
      refine ⟨e, ?_⟩
      rw [parseRangeIntAux, hex]
      show Except.map (fun x => Int.ofNat (digitsToNat t) :: x)
        (parseRangeIntAux total k rest (done + 1)) = Except.error e
      rw [he]
      rfl

/-- C5, counterexample: the claim states that parsing the string 12 as an
integer succeeds with the value 1; the modelled parser yields 12. -/
theorem claim5_counterexample :
    parseIntC (str "12") = Except.ok 12 ∧
      (Except.ok 12 : Except Err Int) ≠ Except.ok 1 := by
  constructor
  · decide
  · decide

/-- C5, amended: parsing 12 as an integer succeeds with 12 (not 1);
parsing 12abc fails; leading and trailing whitespace is tolerated; after
the extracted value only whitespace may remain, except that a lone sign
character directly before the end of the input is also accepted by the
stream-based check. -/
theorem claim5_theorem :
    parseIntC (str "12") = Except.ok 12 ∧
    parseIntC (str "12abc") = Except.error (Err.parseAs (str "int")) ∧
    parseIntC (str " \t12 \n") = Except.ok 12 ∧
    parseIntC (str "12 x") = Except.error (Err.parseAs (str "int")) ∧
    parseIntC (str "12 -") = Except.ok 12 ∧
    ∀ s v, parseIntC s = Except.ok v →
      (extractInt s).1 = some v ∧
      (((extractInt s).2.1.dropWhile isSpaceC = []) ∨
        ((extractInt s).2.1.dropWhile isSpaceC = ['-']) ∨
        ((extractInt s).2.1.dropWhile isSpaceC = ['+'])) := by
  refine ⟨by decide, by decide, by decide, by decide, by decide, ?_⟩
  intro s v h
  rw [parseIntC] at h
  rcases hex : extractInt s with ⟨v1, rest, fail1, eof1⟩
  rw [hex] at h
  cases v1 with
  | none => simp at h
  | some w =>
    rcases hex2 : extractInt rest with ⟨v2, rest2, fail2, eof2⟩
    simp only [hex2] at h
    by_cases hcond : (!fail2 || !eof2) = true
    · rw [if_pos hcond] at h
      exact absurd h (by simp)
    · rw [if_neg hcond] at h
      have hv : w = v := Except.ok.inj h
      have hfe : fail2 = true ∧ eof2 = true := by
        cases fail2 <;> cases eof2 <;> simp_all
      constructor
      · simp [hv]
      · show rest.dropWhile isSpaceC = [] ∨
          rest.dropWhile isSpaceC = ['-'] ∨ rest.dropWhile isSpaceC = ['+']
        rcases hrd : rest.dropWhile isSpaceC with _ | ⟨c, cs'⟩
        · left; rfl
        · rw [extractInt, hrd] at hex2
          by_cases hsgn : (decide (c = '-') || decide (c = '+')) = true
          · simp only [hsgn, if_true] at hex2
            by_cases hd : (cs'.takeWhile Char.isDigit).isEmpty = true
            · simp only [hd, if_true, Prod.mk.injEq] at hex2
              obtain ⟨-, -, -, heof⟩ := hex2
              have hcs : cs' = [] := List.isEmpty_iff.mp (heof.trans hfe.2)
              subst hcs
              rw [Bool.or_eq_true] at hsgn
              rcases hsgn with h1 | h1
              · right; left
                rw [decide_eq_true_eq] at h1
                rw [h1]
              · right; right
                rw [decide_eq_true_eq] at h1
                rw [h1]
            · exfalso
              simp only [hd, Bool.false_eq_true, if_false, Prod.mk.injEq] at hex2
              obtain ⟨-, -, hfail, -⟩ := hex2
              rw [← hfail] at hfe
              simp at hfe
          · simp only [hsgn, Bool.false_eq_true, if_false] at hex2
            exfalso
            by_cases hd : ((c :: cs').takeWhile Char.isDigit).isEmpty = true
            · simp only [hd, if_true, Prod.mk.injEq] at hex2
              obtain ⟨-, -, -, heof⟩ := hex2
              have : (c :: cs').isEmpty = true := heof.trans hfe.2
              simp at this
            · simp only [hd, Bool.false_eq_true, if_false, Prod.mk.injEq] at hex2
              obtain ⟨-, -, hfail, -⟩ := hex2
              rw [← hfail] at hfe
              simp at hfe

/-- C5, witness: the general consumption clause of claim5_theorem applied
at the input 42. -/
theorem claim5_witness :
    (extractInt (str "42")).1 = some 42 ∧
      (((extractInt (str "42")).2.1.dropWhile isSpaceC = []) ∨
        ((extractInt (str "42")).2.1.dropWhile isSpaceC = ['-']) ∨
        ((extractInt (str "42")).2.1.dropWhile isSpaceC = ['+'])) :=
  claim5_theorem.2.2.2.2.2 (str "42") 42 (by decide)

/-- C6: the boolean parser sends yes and true (case-insensitively) to
true and no and false to false; every other input goes through the integer
parser, true iff the parsed value is nonzero, so 1 is true, 0 is false and
maybe fails like its integer parse. -/
theorem claim6_theorem :
    parseBoolC (str "yes") = Except.ok true ∧
    parseBoolC (str "true") = Except.ok true ∧
    parseBoolC (str "Yes") = Except.ok true ∧
    parseBoolC (str "no") = Except.ok false ∧
    parseBoolC (str "false") = Except.ok false ∧
    parseBoolC (str "1") = Except.ok true ∧
    parseBoolC (str "0") = Except.ok false ∧
    parseBoolC (str "maybe") = Except.error (Err.parseAs (str "int")) ∧
    ∀ s, s.map toLowerC ≠ str "yes" → s.map toLowerC ≠ str "true" →
      s.map toLowerC ≠ str "no" → s.map toLowerC ≠ str "false" →
      parseBoolC s = (parseIntC (s.map toLowerC)).map (fun v => v != 0) := by
  refine ⟨by decide, by decide, by decide, by decide, by decide, by decide, by decide,
    by decide, ?_⟩
  intro s h1 h2 h3 h4
  simp only [parseBoolC]
  rw [if_neg (by simp [h1, h2]), if_neg (by simp [h3, h4])]

/-- C6, witness: the fallback clause of claim6_theorem applied at the
input 7. -/
theorem claim6_witness :
    parseBoolC (str "7") = (parseIntC ((str "7").map toLowerC)).map (fun v => v != 0) :=
  claim6_theorem.2.2.2.2.2.2.2.2 (str "7") (by decide) (by decide) (by decide) (by decide)

/-- C7, counterexample: the claim states that any token count other than
the arity is a failure, but the 3-token input 1 2 - parses as a 2-element
array, because the trailing lone sign makes the final dummy extraction
fail with the eof flag set. -/
theorem claim7_counterexample :
    parseArrayInt 2 (str "1 2 -") = Except.ok [1, 2] ∧
      (splitWs (str "1 2 -")).length = 3 := by
  constructor
  · decide
  · decide

/-- C7, amended: the array parser extracts the elements from a stream, so
1..8 parses as an 8-element array and a 3-token input for 8 slots fails
with an arity error naming the 3 extracted items; when every
whitespace-delimited token is a plain digit run, fewer or more tokens than
the arity is always a failure; in general the stream splits at sign
characters (12-34 yields two elements) and tolerates a lone trailing
sign. -/
theorem claim7_theorem :
    parseArrayInt 8 (str "1 2 3 4 5 6 7 8") = Except.ok [1, 2, 3, 4, 5, 6, 7, 8] ∧
    parseArrayInt 8 (str "1 2 3") = Except.error (Err.rangeItems 3) ∧
    parseArrayInt 2 (str "12-34") = Except.ok [12, -34] ∧
    ∀ n s, (∀ c ∈ s, isWs c = true ∨ c.isDigit = true) → (splitWs s).length ≠ n →
      ∃ e, parseArrayInt n s = Except.error e := by
  refine ⟨by decide, by decide, by decide, ?_⟩
  intro n s H hne
  exact parseRange_token_arity n n 0 s H hne

/-- C7, witness: the arity clause of claim7_theorem applied to a 2-token
input for 3 slots. -/
theorem claim7_witness :
    ∃ e, parseArrayInt 3 (str "1 2") = Except.error e :=
  claim7_theorem.2.2.2 3 (str "1 2") (by decide) (by decide)

/-! The ConfigTree data model.  std::map is modelled as an association
list kept sorted by the lexicographic key order (the map's iteration
order); the two key-order vectors and the prefix member are carried
verbatim. -/

/-- Lexicographic comparison of strings, the std::map key order. -/
def ltStr : Str → Str → Bool
  | _, [] => false
  | [], _ :: _ => true
  | a :: as, b :: bs => a < b || (a = b && ltStr as bs)

/-- std::map lookup (find). -/
def lookupM {α : Type} : List (Str × α) → Str → Option α
  | [], _ => none
  | (k', v) :: rest, k => if k = k' then some v else lookupM rest k

/-- std::map count, as a containment test (keys are unique). -/
def containsM {α : Type} (m : List (Str × α)) (k : Str) : Bool := (lookupM m k).isSome

/-- std::map insertion or assignment, keeping the list sorted by key. -/
def insertM {α : Type} (k : Str) (v : α) : List (Str × α) → List (Str × α)
  | [] => [(k, v)]
  | (k', v') :: rest =>
    if ltStr k k' then (k, v) :: (k', v') :: rest
    else if k = k' then (k, v) :: rest
    else (k', v') :: insertM k v rest

/-- One node of the hierarchy: the prefix member, the two insertion-order
key vectors, and the two maps (values and substructures). -/
inductive ConfigTree : Type where
  | node (pfx : Str) (valueKeys subKeys : List Str)
      (values : List (Str × Str)) (subs : List (Str × ConfigTree)) : ConfigTree

def ConfigTree.pfx : ConfigTree → Str
  | node p _ _ _ _ => p

def ConfigTree.valueKeys : ConfigTree → List Str
  | node _ vk _ _ _ => vk

def ConfigTree.subKeys : ConfigTree → List Str
  | node _ _ sk _ _ => sk

def ConfigTree.values : ConfigTree → List (Str × Str)
  | node _ _ _ vs _ => vs

def ConfigTree.subs : ConfigTree → List (Str × ConfigTree)
  | node _ _ _ _ ss => ss

/-- A default-constructed ConfigTree (also the static empty singleton). -/
def emptyTree : ConfigTree := ConfigTree.node [] [] [] [] []

/-- Splitting a dotted key into its segments.  The C++ operations compute
the position of the first dot and the two substr parts and recurse on
key.substr(dot+1); iterating that first-dot split over the whole key
produces exactly this segment list, on which the recursive path
operations below are defined. -/
def splitDot : Str → List Str
  | [] => [[]]
  | c :: cs =>
    if c = '.' then [] :: splitDot cs
    else
      match splitDot cs with
      | s :: ss => (c :: s) :: ss
      | [] => [[c]]

/-- Replace the prefix member of a node (the assignment
subs_[key].prefix_ = ...). -/
def setPfx (t : ConfigTree) (p : Str) : ConfigTree :=
  match t with
  | ConfigTree.node _ vk sk vs ss => ConfigTree.node p vk sk vs ss

/-- ConfigTree::sub (non-const) at a single segment: collision check,
push the key onto subKeys when new, default-construct the child when
missing, and set its prefix. -/
def subMut1 (t : ConfigTree) (k : Str) : Except Err ConfigTree :=
  if containsM t.values k then Except.error (Err.collision k)
  else
    match t with
    | ConfigTree.node p vk sk vs ss =>
      let sk' := if containsM ss k then sk else sk ++ [k]
      let child := (lookupM ss k).getD emptyTree
      Except.ok (ConfigTree.node p vk sk' vs (insertM k (setPfx child (p ++ k ++ ['.'])) ss))

/-- Rebuild a node with the child at one key replaced; this models the
mutation of the subtree reference returned by sub. -/
def replaceSub (t : ConfigTree) (k : Str) (c : ConfigTree) : ConfigTree :=
  match t with
  | ConfigTree.node p vk sk vs ss => ConfigTree.node p vk sk vs (insertM k c ss)

/-- ConfigTree::sub (non-const) over a segment list; the caller receives
the whole updated tree. -/
def subMutSeg : ConfigTree → List Str → Except Err ConfigTree
  | t, [k] => subMut1 t k
  | t, k :: rest => do
    let t1 ← subMut1 t k
    match lookupM t1.subs k with
    | some c => do
      let c' ← subMutSeg c rest
      Except.ok (replaceSub t1 k c')
    | none => Except.error (Err.collision k)
  | t, [] => Except.ok t

/-- ConfigTree::sub (const) at a single segment: collision check, then
either the child, the static empty tree, or a NotFound failure. -/
def subConst1 (t : ConfigTree) (k : Str) (failIfMissing : Bool) : Except Err ConfigTree :=
  if containsM t.values k then Except.error (Err.collision k)
  else
    match lookupM t.subs k with
    | none =>
      if failIfMissing then Except.error (Err.notFoundSub k t.pfx) else Except.ok emptyTree
    | some c => Except.ok c

/-- ConfigTree::sub (const) over a segment list; the recursion drops the
failIfMissing flag, as the source calls sub with its default argument on
both the head segment and the tail. -/
def subConstSeg : ConfigTree → List Str → Bool → Except Err ConfigTree
  | t, [k], fim => subConst1 t k fim
  | t, k :: rest, _ => do
    let s ← subConst1 t k false
    subConstSeg s rest false
  | t, [], _ => Except.ok t

/-- ConfigTree::hasKey over a segment list. -/
def hasKeySeg : ConfigTree → List Str → Except Err Bool
  | t, [k] =>
    if containsM t.values k then
      if containsM t.subs k then Except.error (Err.collision k) else Except.ok true
    else Except.ok false
  | t, k :: rest =>
    if containsM t.subs k = false then Except.ok false
    else if containsM t.values k then Except.error (Err.collision k)
    else do
      let s ← subConstSeg t [k] false
      hasKeySeg s rest
  | _, [] => Except.ok false

/-- ConfigTree::hasSub over a segment list. -/
def hasSubSeg : ConfigTree → List Str → Except Err Bool
  | t, [k] =>
    if containsM t.subs k then
      if containsM t.values k then Except.error (Err.collision k) else Except.ok true
    else Except.ok false
  | t, k :: rest =>
    if containsM t.subs k = false then Except.ok false
    else if containsM t.values k then Except.error (Err.collision k)
    else do
      let s ← subConstSeg t [k] false
      hasSubSeg s rest
  | _, [] => Except.ok false

/-- ConfigTree::operator[] (const) over a segment list. -/
def readIndexSeg : ConfigTree → List Str → Except Err Str
  | t, [k] => do
    let b ← hasKeySeg t [k]
    if b then
      match lookupM t.values k with
      | some v => Except.ok v
      | none => Except.error (Err.notFoundKey k t.pfx)
    else Except.error (Err.notFoundKey k t.pfx)
  | t, k :: rest => do
    let s ← subConstSeg t [k] false
    readIndexSeg s rest
  | t, [] => Except.error (Err.notFoundKey [] t.pfx)

/-- ConfigTree::operator[] (non-const) over a segment list, immediately
assigned with a value, as every caller in the sources does: auto-vivify
the path with sub, push the leaf key onto valueKeys when new, and store
the value. -/
def setValueSeg : ConfigTree → List Str → Str → Except Err ConfigTree
  | t, [k], v => do
    let b ← hasKeySeg t [k]
    match t with
    | ConfigTree.node p vk sk vs ss =>
      let vk' := if b then vk else vk ++ [k]
      Except.ok (ConfigTree.node p vk' sk (insertM k v vs) ss)
  | t, k :: rest, v => do
    let t1 ← subMut1 t k
    match lookupM t1.subs k with
    | some c => do
      let c' ← setValueSeg c rest v
      Except.ok (replaceSub t1 k c')
    | none => Except.error (Err.collision k)
  | t, [], _ => Except.ok t

/-- ConfigTree::hasKey on a dotted key. -/
def hasKey (t : ConfigTree) (key : Str) : Except Err Bool := hasKeySeg t (splitDot key)

/-- ConfigTree::hasSub on a dotted key. -/
def hasSub (t : ConfigTree) (key : Str) : Except Err Bool := hasSubSeg t (splitDot key)

/-- ConfigTree::sub (non-const) on a dotted key, returning the updated tree. -/
def subMut (t : ConfigTree) (key : Str) : Except Err ConfigTree := subMutSeg t (splitDot key)

/-- ConfigTree::sub (const) on a dotted key. -/
def subConst (t : ConfigTree) (key : Str) (failIfMissing : Bool) : Except Err ConfigTree :=
  subConstSeg t (splitDot key) failIfMissing

/-- ConfigTree::operator[] (const) on a dotted key. -/
def readIndex (t : ConfigTree) (key : Str) : Except Err Str := readIndexSeg t (splitDot key)

/-- Assignment through ConfigTree::operator[] (non-const) on a dotted key. -/
def setValue (t : ConfigTree) (key : Str) (v : Str) : Except Err ConfigTree :=
  setValueSeg t (splitDot key) v

/-- ConfigTree::get of a typed value: NotFound check through hasKey, then
the type's parser on the raw string, parse failures rewrapped with the
key context. -/
def getWith {α : Type} (parse : Str → Except Err α) (t : ConfigTree) (key : Str) :
    Except Err α := do
  let b ← hasKey t key
  if b then
    match (do
      let raw ← readIndex t key
      parse raw : Except Err α) with
    | Except.ok v => Except.ok v
    | Except.error e => Except.error (Err.cannotParse key e)
  else Except.error (Err.notFoundKey key t.pfx)

/-- ConfigTree::get with a default value: hasKey decides between the
failing accessor and the default. -/
def getWithDefault {α : Type} (parse : Str → Except Err α) (t : ConfigTree) (key : Str)
    (d : α) : Except Err α := do
  let b ← hasKey t key
  if b then getWith parse t key else Except.ok d

/-- Specification-side pure lookup: the value stored at a segment path,
if any, reading through the maps only. -/
def lookupVSeg : ConfigTree → List Str → Option Str
  | t, [k] => lookupM t.values k
  | t, k :: rest =>
    match lookupM t.subs k with
    | some c => lookupVSeg c rest
    | none => none
  | _, [] => none

/-- Specification-side pure lookup on a dotted key. -/
def lookupV (t : ConfigTree) (key : Str) : Option Str := lookupVSeg t (splitDot key)

/-- Key-kind exclusivity checked to a given depth: no key of the values
map also names a subtree, recursively in every child. -/
def exclusiveN : Nat → ConfigTree → Bool
  | 0, _ => false
  | n + 1, t =>
    t.values.all (fun kv => !containsM t.subs kv.1) &&
      t.subs.all (fun kc => exclusiveN n kc.2)

/-- The final segment of the path does not name an existing subtree in
the node the rest of the path leads to (the condition under which the
mutable value accessor preserves exclusivity). -/
def freeOfSubAtLeaf : ConfigTree → List Str → Bool
  | t, [k] => !containsM t.subs k
  | t, k :: rest =>
    match lookupM t.subs k with
    | some c => freeOfSubAtLeaf c rest
    | none => true
  | _, [] => true

/-! Map lemmas. -/

theorem exbind_ok {α β : Type} (a : α) (f : α → Except Err β) :
    (Except.ok a : Except Err α) >>= f = f a := rfl

theorem exbind_err {α β : Type} (e : Err) (f : α → Except Err β) :
    (Except.error e : Except Err α) >>= f = Except.error e := rfl

theorem lookupM_insertM_self {α : Type} (k : Str) (v : α) :
    ∀ m : List (Str × α), lookupM (insertM k v m) k = some v := by
  intro m
  induction m with
  | nil => simp [insertM, lookupM]
  | cons hd rest ih =>
    rcases hd with ⟨k', v'⟩
    rw [insertM]
    by_cases hlt : ltStr k k' = true
    · simp [hlt, lookupM]
    · rw [if_neg (by simpa using hlt)]
      by_cases heq : k = k'
      · simp [heq, lookupM]
      · rw [if_neg heq, lookupM, if_neg heq]
        exact ih

theorem lookupM_insertM_ne {α : Type} (k j : Str) (v : α) (hne : j ≠ k) :
    ∀ m : List (Str × α), lookupM (insertM k v m) j = lookupM m j := by
  intro m
  induction m with
  | nil => simp [insertM, lookupM, hne]
  | cons hd rest ih =>
    rcases hd with ⟨k', v'⟩
    rw [insertM]
    by_cases hlt : ltStr k k' = true
    · simp only [hlt, if_true]
      rw [lookupM, if_neg hne]
    · rw [if_neg (by simpa using hlt)]
      by_cases heq : k = k'
      · subst heq
        simp only [lookupM]
        rw [if_neg hne, if_neg hne]
      · rw [if_neg heq, lookupM, lookupM, ih]

theorem mem_insertM {α : Type} {k : Str} {v : α} :
    ∀ {m : List (Str × α)} {x : Str × α}, x ∈ insertM k v m → x = (k, v) ∨ x ∈ m := by
  intro m
  induction m with
  | nil =>
    intro x hx
    rw [insertM] at hx
    left
    simpa using hx
  | cons hd rest ih =>
    intro x hx
    rcases hd with ⟨k', v'⟩
    rw [insertM] at hx
    by_cases hlt : ltStr k k' = true
    · rw [if_pos hlt] at hx
      rcases List.mem_cons.mp hx with h | h
      · left; exact h
      · right; exact h
    · rw [if_neg (by simpa using hlt)] at hx
      by_cases heq : k = k'
      · rw [if_pos heq] at hx
        rcases List.mem_cons.mp hx with h | h
        · left; exact h
        · right; exact List.mem_cons_of_mem _ h
      · rw [if_neg heq] at hx
        rcases List.mem_cons.mp hx with h | h
        · right; rw [h]; exact List.mem_cons_self _ _
        · rcases ih h with h' | h'
          · left; exact h'
          · right; exact List.mem_cons_of_mem _ h'

theorem lookupM_mem {α : Type} :
    ∀ {m : List (Str × α)} {k : Str} {c : α}, lookupM m k = some c → (k, c) ∈ m := by
  intro m
  induction m with
  | nil => intro k c h; simp [lookupM] at h
  | cons hd rest ih =>
    intro k c h
    rcases hd with ⟨k', v'⟩
    rw [lookupM] at h
    by_cases heq : k = k'
    · rw [if_pos heq] at h
      subst heq
      cases h
      exact List.mem_cons_self _ _
    · rw [if_neg heq] at h
      exact List.mem_cons_of_mem _ (ih h)

theorem mem_containsM {α : Type} :
    ∀ {m : List (Str × α)} {k : Str} {v : α}, (k, v) ∈ m → containsM m k = true := by
  intro m
  induction m with
  | nil => intro k v h; simp at h
  | cons hd rest ih =>
    intro k v h
    rcases hd with ⟨k', v'⟩
    rcases List.mem_cons.mp h with h | h
    · cases h
      simp [containsM, lookupM]
    · rw [containsM, lookupM]
      by_cases heq : k = k'
      · simp [heq]
      · rw [if_neg heq]
        exact ih h

theorem ltStr_irrefl : ∀ k : Str, ltStr k k = false := by
  intro k
  induction k with
  | nil => rfl
  | cons c cs ih => simp [ltStr, ih]

theorem insertM_insertM_self {α : Type} (k : Str) (a b : α) :
    ∀ m : List (Str × α), insertM k a (insertM k b m) = insertM k a m := by
  intro m
  induction m with
  | nil => simp [insertM, ltStr_irrefl]
  | cons hd rest ih =>
    rcases hd with ⟨k', v'⟩
    rw [insertM]
    by_cases hlt : ltStr k k' = true
    · rw [if_pos hlt, insertM, if_neg (by simp [ltStr_irrefl]), if_pos rfl, insertM, if_pos hlt]
    · rw [if_neg (by simpa using hlt)]
      by_cases heq : k = k'
      · rw [if_pos heq, insertM, if_neg (by simp [ltStr_irrefl]), if_pos rfl, insertM,
          if_neg (by simpa using hlt), if_pos heq]
      · rw [if_neg heq, insertM, if_neg (by simpa using hlt), if_neg heq, ih, insertM,
          if_neg (by simpa using hlt), if_neg heq]

/-! Unfolding lemmas for the path operations. -/

theorem hasKeySeg_leaf (t : ConfigTree) (k : Str) :
    hasKeySeg t [k] =
      if containsM t.values k then
        if containsM t.subs k then Except.error (Err.collision k) else Except.ok true
      else Except.ok false := rfl

theorem hasKeySeg_cons (t : ConfigTree) (k k2 : Str) (rest : List Str) :
    hasKeySeg t (k :: k2 :: rest) =
      (if containsM t.subs k = false then Except.ok false
       else if containsM t.values k then Except.error (Err.collision k)
       else (subConstSeg t [k] false) >>= fun s => hasKeySeg s (k2 :: rest)) := rfl

theorem hasSubSeg_leaf (t : ConfigTree) (k : Str) :
    hasSubSeg t [k] =
      if containsM t.subs k then
        if containsM t.values k then Except.error (Err.collision k) else Except.ok true
      else Except.ok false := rfl

theorem hasSubSeg_cons (t : ConfigTree) (k k2 : Str) (rest : List Str) :
    hasSubSeg t (k :: k2 :: rest) =
      (if containsM t.subs k = false then Except.ok false
       else if containsM t.values k then Except.error (Err.collision k)
       else (subConstSeg t [k] false) >>= fun s => hasSubSeg s (k2 :: rest)) := rfl

theorem readIndexSeg_leaf (t : ConfigTree) (k : Str) :
    readIndexSeg t [k] =
      ((hasKeySeg t [k]) >>= fun b =>
        if b then
          match lookupM t.values k with
          | some v => Except.ok v
          | none => Except.error (Err.notFoundKey k t.pfx)
        else Except.error (Err.notFoundKey k t.pfx)) := rfl

theorem lookupVSeg_leaf (t : ConfigTree) (k : Str) :
    lookupVSeg t [k] = lookupM t.values k := rfl

theorem lookupVSeg_cons (t : ConfigTree) (k k2 : Str) (rest : List Str) :
    lookupVSeg t (k :: k2 :: rest) =
      match lookupM t.subs k with
      | some c => lookupVSeg c (k2 :: rest)
      | none => none := rfl

theorem subConstSeg_leaf (t : ConfigTree) (k : Str) (fim : Bool) :
    subConstSeg t [k] fim = subConst1 t k fim := rfl

theorem subMutSeg_leaf (t : ConfigTree) (k : Str) : subMutSeg t [k] = subMut1 t k := rfl

theorem subMutSeg_cons (t : ConfigTree) (k k2 : Str) (rest : List Str) :
    subMutSeg t (k :: k2 :: rest) =
      ((subMut1 t k) >>= fun t1 =>
        match lookupM t1.subs k with
        | some c => (subMutSeg c (k2 :: rest)) >>= fun c' => Except.ok (replaceSub t1 k c')
        | none => Except.error (Err.collision k)) := rfl

theorem setValueSeg_leaf (t : ConfigTree) (k v : Str) :
    setValueSeg t [k] v =
      ((hasKeySeg t [k]) >>= fun b =>
        match t with
        | ConfigTree.node p vk sk vs ss =>
          Except.ok
            (ConfigTree.node p (if b then vk else vk ++ [k]) sk (insertM k v vs) ss)) := rfl

theorem setValueSeg_cons (t : ConfigTree) (k k2 v : Str) (rest : List Str) :
    setValueSeg t (k :: k2 :: rest) v =
      ((subMut1 t k) >>= fun t1 =>
        match lookupM t1.subs k with
        | some c =>
          (setValueSeg c (k2 :: rest) v) >>= fun c' => Except.ok (replaceSub t1 k c')
        | none => Except.error (Err.collision k)) := rfl

theorem freeOfSubAtLeaf_leaf (t : ConfigTree) (k : Str) :
    freeOfSubAtLeaf t [k] = !containsM t.subs k := rfl

theorem freeOfSubAtLeaf_cons (t : ConfigTree) (k k2 : Str) (rest : List Str) :
    freeOfSubAtLeaf t (k :: k2 :: rest) =
      match lookupM t.subs k with
      | some c => freeOfSubAtLeaf c (k2 :: rest)
      | none => true := rfl

/-! Exclusivity lemmas. -/

theorem exclusiveN_zero (t : ConfigTree) : exclusiveN 0 t = false := rfl

theorem exclusiveN_succ (n : Nat) (t : ConfigTree) :
    exclusiveN (n + 1) t =
      (t.values.all (fun kv => !containsM t.subs kv.1) &&
        t.subs.all (fun kc => exclusiveN n kc.2)) := rfl

theorem exclusiveN_mono :
    ∀ (n m : Nat) (t : ConfigTree), exclusiveN n t = true → n ≤ m →
      exclusiveN m t = true := by
  intro n
  induction n with
  | zero => intro m t h _; rw [exclusiveN_zero] at h; exact absurd h (by simp)
  | succ k ih =>
    intro m t h hle
    cases m with
    | zero => omega
    | succ m' =>
      rw [exclusiveN_succ, Bool.and_eq_true] at h ⊢
      rcases h with ⟨h1, h2⟩
      refine ⟨h1, ?_⟩
      rw [List.all_eq_true] at h2 ⊢
      intro x hx
      exact ih m' x.2 (h2 x hx) (by omega)

theorem exclusiveN_setPfx (n : Nat) (t : ConfigTree) (p : Str) :
    exclusiveN n (setPfx t p) = exclusiveN n t := by
  cases t with
  | node q vk sk vs ss => cases n <;> rfl

theorem exclusiveN_empty : ∀ n : Nat, 1 ≤ n → exclusiveN n emptyTree = true := by
  intro n h
  cases n with
  | zero => omega
  | succ m => rfl

theorem freeOfSubAtLeaf_setPfx (t : ConfigTree) (p : Str) :
    ∀ path, freeOfSubAtLeaf (setPfx t p) path = freeOfSubAtLeaf t path := by
  intro path
  cases t with
  | node q vk sk vs ss => rcases path with _ | ⟨k, _ | ⟨k2, rest⟩⟩ <;> rfl

theorem freeOfSubAtLeaf_empty : ∀ path, freeOfSubAtLeaf emptyTree path = true := by
  intro path
  rcases path with _ | ⟨k, _ | ⟨k2, rest⟩⟩ <;> rfl

/-- On trees exclusive to a depth covering the path, hasKey never throws
and answers exactly whether a value is stored at that path. -/
theorem hasKeySeg_lookupV :
    ∀ (path : List Str) (n : Nat) (t : ConfigTree), exclusiveN n t = true →
      path.length ≤ n → hasKeySeg t path = Except.ok (lookupVSeg t path).isSome := by
  intro path
  induction path with
  | nil => intro n t _ _; rfl
  | cons k rest ih =>
    intro n t hex hlen
    cases n with
    | zero => rw [exclusiveN_zero] at hex; exact absurd hex (by simp)
    | succ m =>
      rw [exclusiveN_succ, Bool.and_eq_true, List.all_eq_true, List.all_eq_true] at hex
      rcases hex with ⟨hv, hs⟩
      cases rest with
      | nil =>
        rw [hasKeySeg_leaf, lookupVSeg_leaf]
        by_cases hvk : containsM t.values k = true
        · rcases hlook : lookupM t.values k with _ | v
          · rw [containsM, hlook] at hvk; simp at hvk
          · have hnsub : containsM t.subs k = false := by
              have := hv _ (lookupM_mem hlook)
              simpa using this
            rw [if_pos hvk, if_neg (by simp [hnsub])]
            rfl
        · have hvk' : containsM t.values k = false := by simpa using hvk
          rw [if_neg (by simp [hvk'])]
          rcases hlook : lookupM t.values k with _ | v
          · rfl
          · rw [containsM, hlook] at hvk'; simp at hvk'
      | cons k2 rest2 =>
        have hlen2 : (k2 :: rest2).length ≤ m := by
          simp only [List.length_cons] at hlen ⊢
          omega
        rcases hlooks : lookupM t.subs k with _ | c
        · have hsub : containsM t.subs k = false := by rw [containsM, hlooks]; rfl
          rw [hasKeySeg_cons, lookupVSeg_cons, if_pos hsub]
          simp only [hlooks]
          rfl
        · have hsub : containsM t.subs k = true := by rw [containsM, hlooks]; rfl
          have hvk : containsM t.values k = false := by
            by_contra hc
            rw [Bool.not_eq_false] at hc
            rcases hlook : lookupM t.values k with _ | v
            · rw [containsM, hlook] at hc; simp at hc
            · have := hv _ (lookupM_mem hlook)
              rw [hsub] at this
              simp at this
          rw [hasKeySeg_cons, lookupVSeg_cons, if_neg (by simp [hsub]),
            if_neg (by simp [hvk])]
          have hcs : subConstSeg t [k] false = Except.ok c := by
            rw [subConstSeg_leaf, subConst1, if_neg (by simp [hvk]), hlooks]
          rw [hcs, exbind_ok]
          have hexc : exclusiveN m c = true := by
            have := hs _ (lookupM_mem hlooks)
            simpa using this
          rw [ih m c hexc hlen2]
          simp only [hlooks]

/-! Exclusivity preservation by the mutable accessors. -/

theorem replaceSub_values (t : ConfigTree) (k : Str) (c : ConfigTree) :
    (replaceSub t k c).values = t.values := by cases t; rfl

theorem replaceSub_subs (t : ConfigTree) (k : Str) (c : ConfigTree) :
    (replaceSub t k c).subs = insertM k c t.subs := by cases t; rfl

theorem exclusiveN_of_parts {n : Nat} {t : ConfigTree}
    (h1 : ∀ kv ∈ t.values, containsM t.subs kv.1 = false)
    (h2 : ∀ kc ∈ t.subs, exclusiveN n kc.2 = true) :
    exclusiveN (n + 1) t = true := by
  rw [exclusiveN_succ, Bool.and_eq_true, List.all_eq_true, List.all_eq_true]
  exact ⟨fun x hx => by simpa using h1 x hx, fun x hx => h2 x hx⟩

theorem exclusiveN_parts {n : Nat} {t : ConfigTree} (h : exclusiveN (n + 1) t = true) :
    (∀ kv ∈ t.values, containsM t.subs kv.1 = false) ∧
      (∀ kc ∈ t.subs, exclusiveN n kc.2 = true) := by
  rw [exclusiveN_succ, Bool.and_eq_true, List.all_eq_true, List.all_eq_true] at h
  exact ⟨fun x hx => by simpa using h.1 x hx, fun x hx => h.2 x hx⟩

theorem subMut1_ok {t t1 : ConfigTree} {k : Str} (h : subMut1 t k = Except.ok t1) :
    containsM t.values k = false ∧ t1.values = t.values ∧
      t1.subs =
        insertM k (setPfx ((lookupM t.subs k).getD emptyTree) (t.pfx ++ k ++ ['.']))
          t.subs := by
  cases t with
  | node p vk sk vs ss =>
    rw [subMut1] at h
    by_cases hc : containsM (ConfigTree.node p vk sk vs ss).values k = true
    · rw [if_pos hc] at h
      exact absurd h (by simp)
    · rw [if_neg hc] at h
      simp only [] at h
      have ht1 := Except.ok.inj h
      refine ⟨by simpa using hc, ?_, ?_⟩ <;> rw [← ht1] <;> rfl

theorem subMut1_child_exclusive {n : Nat} {t : ConfigTree} {k : Str}
    (hex : exclusiveN (n + 1) t = true) :
    exclusiveN (n + 1)
      (setPfx ((lookupM t.subs k).getD emptyTree) (t.pfx ++ k ++ ['.'])) = true := by
  rw [exclusiveN_setPfx]
  rcases hls : lookupM t.subs k with _ | c
  · simp only [Option.getD_none]
    exact exclusiveN_empty (n + 1) (by omega)
  · simp only [Option.getD_some]
    exact exclusiveN_mono n (n + 1) c
      ((exclusiveN_parts hex).2 _ (lookupM_mem hls)) (by omega)

theorem subMut1_exclusive {n : Nat} {t t1 : ConfigTree} {k : Str}
    (hex : exclusiveN (n + 1) t = true) (h : subMut1 t k = Except.ok t1) :
    exclusiveN (n + 2) t1 = true := by
  rcases subMut1_ok h with ⟨hck, hval, hsubs⟩
  rcases exclusiveN_parts hex with ⟨h1, h2⟩
  apply exclusiveN_of_parts
  · intro kv hkv
    rw [hval] at hkv
    have hne : kv.1 ≠ k := by
      intro he
      have := mem_containsM (show (kv.1, kv.2) ∈ t.values from hkv)
      rw [he, hck] at this
      simp at this
    rw [hsubs, containsM, lookupM_insertM_ne _ _ _ hne]
    exact h1 kv hkv
  · intro kc hkc
    rw [hsubs] at hkc
    rcases mem_insertM hkc with he | hm
    · rw [he]
      exact subMut1_child_exclusive hex
    · exact exclusiveN_mono n (n + 1) kc.2 (h2 kc hm) (by omega)

theorem replace_exclusive {n m : Nat} {t t1 c' : ConfigTree} {k : Str}
    (hnm : n + 1 ≤ m) (h : subMut1 t k = Except.ok t1)
    (hex : exclusiveN (n + 1) t = true) (hc' : exclusiveN m c' = true) :
    exclusiveN (m + 1) (replaceSub t1 k c') = true := by
  rcases subMut1_ok h with ⟨hck, hval, hsubs⟩
  rcases exclusiveN_parts hex with ⟨h1, h2⟩
  apply exclusiveN_of_parts
  · intro kv hkv
    rw [replaceSub_values, hval] at hkv
    have hne : kv.1 ≠ k := by
      intro he
      have := mem_containsM (show (kv.1, kv.2) ∈ t.values from hkv)
      rw [he, hck] at this
      simp at this
    rw [replaceSub_subs, hsubs, insertM_insertM_self, containsM,
      lookupM_insertM_ne _ _ _ hne]
    exact h1 kv hkv
  · intro kc hkc
    rw [replaceSub_subs, hsubs, insertM_insertM_self] at hkc
    rcases mem_insertM hkc with he | hm
    · rw [he]
      exact hc'
    · exact exclusiveN_mono n m kc.2 (h2 kc hm) (by omega)

theorem subMutSeg_exclusive :
    ∀ (path : List Str) (n : Nat) (t t' : ConfigTree), exclusiveN n t = true →
      subMutSeg t path = Except.ok t' → exclusiveN (n + path.length) t' = true := by
  intro path
  induction path with
  | nil =>
    intro n t t' hex h
    have ht := Except.ok.inj h
    rw [← ht]
    simpa using hex
  | cons k rest ih =>
    intro n t t' hex h
    cases n with
    | zero => rw [exclusiveN_zero] at hex; exact absurd hex (by simp)
    | succ m =>
      cases rest with
      | nil =>
        rw [subMutSeg_leaf] at h
        have := subMut1_exclusive hex h
        exact exclusiveN_mono _ _ _ this (by simp [List.length_cons])
      | cons k2 rest2 =>
        rw [subMutSeg_cons] at h
        rcases h1 : subMut1 t k with e | t1
        · rw [h1, exbind_err] at h; exact absurd h (by simp)
        · rw [h1, exbind_ok] at h
          rcases subMut1_ok h1 with ⟨-, -, hsubs⟩
          have hl : lookupM t1.subs k =
              some (setPfx ((lookupM t.subs k).getD emptyTree) (t.pfx ++ k ++ ['.'])) := by
            rw [hsubs, lookupM_insertM_self]
          rw [hl] at h
          simp only [] at h
          rcases h2 : subMutSeg
              (setPfx ((lookupM t.subs k).getD emptyTree) (t.pfx ++ k ++ ['.']))
              (k2 :: rest2) with e | c'
          · rw [h2, exbind_err] at h; exact absurd h (by simp)
          · rw [h2, exbind_ok] at h
            have ht' := Except.ok.inj h
            rw [← ht']
            have hchex := subMut1_child_exclusive (k := k) hex
            have hc' := ih (m + 1) _ c' hchex h2
            have hres := replace_exclusive (Nat.le_add_right _ _) h1 hex hc'
            apply exclusiveN_mono _ _ _ hres
            simp [List.length_cons]
            omega

theorem setValueSeg_exclusive :
    ∀ (path : List Str) (n : Nat) (t t' : ConfigTree) (v : Str), exclusiveN n t = true →
      freeOfSubAtLeaf t path = true → setValueSeg t path v = Except.ok t' →
      exclusiveN (n + path.length) t' = true := by
  intro path
  induction path with
  | nil =>
    intro n t t' v hex _ h
    have ht := Except.ok.inj h
    rw [← ht]
    simpa using hex
  | cons k rest ih =>
    intro n t t' v hex hfree h
    cases n with
    | zero => rw [exclusiveN_zero] at hex; exact absurd hex (by simp)
    | succ m =>
      cases rest with
      | nil =>
        rw [setValueSeg_leaf] at h
        have hhk := hasKeySeg_lookupV [k] (m + 1) t hex (by simp)
        rw [hhk, exbind_ok] at h
        cases t with
        | node p vk sk vs ss =>
          simp only [] at h
          have ht' := Except.ok.inj h
          rw [← ht']
          apply exclusiveN_of_parts
          · intro kv hkv
            rcases mem_insertM hkv with he | hm
            · rw [he]
              rw [freeOfSubAtLeaf_leaf] at hfree
              simpa using hfree
            · exact (exclusiveN_parts hex).1 kv hm
          · intro kc hkc
            exact exclusiveN_mono m (m + 1) kc.2 ((exclusiveN_parts hex).2 kc hkc) (by omega)
      | cons k2 rest2 =>
        rw [setValueSeg_cons] at h
        rcases h1 : subMut1 t k with e | t1
        · rw [h1, exbind_err] at h; exact absurd h (by simp)
        · rw [h1, exbind_ok] at h
          rcases subMut1_ok h1 with ⟨-, -, hsubs⟩
          have hl : lookupM t1.subs k =
              some (setPfx ((lookupM t.subs k).getD emptyTree) (t.pfx ++ k ++ ['.'])) := by
            rw [hsubs, lookupM_insertM_self]
          rw [hl] at h
          simp only [] at h
          rcases h2 : setValueSeg
              (setPfx ((lookupM t.subs k).getD emptyTree) (t.pfx ++ k ++ ['.']))
              (k2 :: rest2) v with e | c'
          · rw [h2, exbind_err] at h; exact absurd h (by simp)
          · rw [h2, exbind_ok] at h
            have ht' := Except.ok.inj h
            rw [← ht']
            have hchex := subMut1_child_exclusive (k := k) hex
            have hfree' : freeOfSubAtLeaf
                (setPfx ((lookupM t.subs k).getD emptyTree) (t.pfx ++ k ++ ['.']))
                (k2 :: rest2) = true := by
              rw [freeOfSubAtLeaf_setPfx]
              rw [freeOfSubAtLeaf_cons] at hfree
              rcases hls : lookupM t.subs k with _ | c0
              · simp only [Option.getD_none]
                exact freeOfSubAtLeaf_empty _
              · simp only [Option.getD_some]
                rw [hls] at hfree
                simpa using hfree
            have hc' := ih (m + 1) _ c' v hchex hfree' h2
            have hres := replace_exclusive (Nat.le_add_right _ _) h1 hex hc'
            apply exclusiveN_mono _ _ _ hres
            simp [List.length_cons]
            omega

theorem splitDot_nodot : ∀ k : Str, ('.' ∈ k → False) → splitDot k = [k] := by
  intro k
  induction k with
  | nil => intro _; rfl
  | cons c cs ih =>
    intro h
    have hc : ¬(c = '.') := fun he => h (he ▸ List.mem_cons_self c cs)
    rw [splitDot, if_neg hc, ih (fun hm => h (List.mem_cons_of_mem c hm))]

/-- C1, counterexample: writing through the mutable value accessor at a
leaf key that already names a subtree completes without an error and
leaves the key present in both maps, a state the claimed invariant
forbids. -/
theorem claim1_counterexample :
    (do
      let t1 ← setValue emptyTree (str "a.x") (str "1")
      let t2 ← setValue t1 (str "a") (str "2")
      Except.ok (containsM t2.values (str "a"), containsM t2.subs (str "a"))) =
      Except.ok (true, true) := by decide

/-- C1, amended: the mutable subtree accessor always preserves key-kind
exclusivity, and the mutable value accessor preserves it whenever the
final path segment does not name an existing subtree in the target node;
the query and read operations (hasKey, hasSub, the const accessor and
get) fail with the distinct Collision error when they meet a key stored
both as value and as subtree, whether as the final segment or as an
intermediate one; but when the final segment of a write names an
existing subtree, the write completes silently and creates the forbidden
state, as the concrete run in the last conjunct shows. -/
theorem claim1_theorem :
    (∀ (path : List Str) (n : Nat) (t t' : ConfigTree), exclusiveN n t = true →
      subMutSeg t path = Except.ok t' → exclusiveN (n + path.length) t' = true) ∧
    (∀ (path : List Str) (n : Nat) (t t' : ConfigTree) (v : Str), exclusiveN n t = true →
      freeOfSubAtLeaf t path = true → setValueSeg t path v = Except.ok t' →
      exclusiveN (n + path.length) t' = true) ∧
    (∀ (t : ConfigTree) (k : Str), ('.' ∈ k → False) →
      containsM t.values k = true → containsM t.subs k = true →
      hasKey t k = Except.error (Err.collision k) ∧
      hasSub t k = Except.error (Err.collision k) ∧
      readIndex t k = Except.error (Err.collision k) ∧
      (∀ (α : Type) (parse : Str → Except Err α),
        getWith parse t k = Except.error (Err.collision k))) ∧
    (∀ (t : ConfigTree) (k k2 : Str) (rest : List Str),
      containsM t.values k = true → containsM t.subs k = true →
      hasKeySeg t (k :: k2 :: rest) = Except.error (Err.collision k) ∧
      hasSubSeg t (k :: k2 :: rest) = Except.error (Err.collision k)) ∧
    ((do
      let t1 ← setValue emptyTree (str "a.x") (str "1")
      Except.ok (freeOfSubAtLeaf t1 (splitDot (str "a")), exclusiveN 3 t1)) =
      Except.ok (false, true)) := by
  refine ⟨subMutSeg_exclusive, setValueSeg_exclusive, ?_, ?_, by decide⟩
  · intro t k hdot hv hs
    have hsp : splitDot k = [k] := splitDot_nodot k hdot
    have hkk : hasKeySeg t [k] = Except.error (Err.collision k) := by
      rw [hasKeySeg_leaf, if_pos hv, if_pos hs]
    have hhk : hasKey t k = Except.error (Err.collision k) := by
      rw [hasKey, hsp, hkk]
    refine ⟨hhk, ?_, ?_, ?_⟩
    · rw [hasSub, hsp, hasSubSeg_leaf, if_pos hs, if_pos hv]
    · rw [readIndex, hsp, readIndexSeg_leaf, hkk, exbind_err]
    · intro α parse
      rw [getWith, hhk, exbind_err]
  · intro t k k2 rest hv hs
    constructor
    · rw [hasKeySeg_cons, if_neg (by rw [hs]; simp), if_pos hv]
    · rw [hasSubSeg_cons, if_neg (by rw [hs]; simp), if_pos hv]

/-- C1, witness: the subtree-accessor preservation clause applied to the
empty tree and a single-segment path, and the query collision clause
applied to a concrete tree holding the key a in both maps. -/
theorem claim1_witness :
    exclusiveN 2 (ConfigTree.node [] [] [str "s"] []
      [(str "s", ConfigTree.node (str "s.") [] [] [] [])]) = true ∧
    hasKey (ConfigTree.node [] [str "a"] [str "a"] [(str "a", str "1")]
        [(str "a", ConfigTree.node (str "a.") [] [] [] [])]) (str "a") =
      Except.error (Err.collision (str "a")) :=
  ⟨claim1_theorem.1 [str "s"] 1 emptyTree
    (ConfigTree.node [] [] [str "s"] [] [(str "s", ConfigTree.node (str "s.") [] [] [] [])])
    (by decide) rfl,
   (claim1_theorem.2.2.1 (ConfigTree.node [] [str "a"] [str "a"] [(str "a", str "1")]
      [(str "a", ConfigTree.node (str "a.") [] [] [] [])]) (str "a")
      (by decide) (by decide) (by decide)).1⟩

/-- C3, counterexample: with the key a stored as a leaf value only,
hasKey on a.x returns false; the claim demands a collision failure when
the intermediate segment exists as a leaf value. -/
theorem claim3_counterexample :
    (do
      let t ← setValue emptyTree (str "a") (str "1")
      hasKey t (str "a.x")) = Except.ok false ∧
    (do
      let t ← setValue emptyTree (str "a") (str "1")
      Except.ok (containsM t.values (str "a"))) = Except.ok true := by
  constructor
  · decide
  · decide

/-- C3, amended: on trees satisfying key-kind exclusivity to a depth
covering the path, hasKey never fails and returns true exactly when a
value is stored at that path; a missing intermediate subtree yields false
even when the segment exists as a leaf value, and the collision error
occurs only when a segment is stored as value and subtree at once. -/
theorem claim3_theorem :
    ∀ (key : Str) (n : Nat) (t : ConfigTree), exclusiveN n t = true →
      (splitDot key).length ≤ n → hasKey t key = Except.ok (lookupV t key).isSome :=
  fun key n t h1 h2 => hasKeySeg_lookupV (splitDot key) n t h1 h2

/-- C3, witness: claim3_theorem applied to the one-value tree of the
counterexample and the dotted key a.x. -/
theorem claim3_witness :
    hasKey (ConfigTree.node [] [str "a"] [] [(str "a", str "1")] []) (str "a.x") =
      Except.ok (lookupV (ConfigTree.node [] [str "a"] [] [(str "a", str "1")] [])
        (str "a.x")).isSome :=
  claim3_theorem (str "a.x") 2 (ConfigTree.node [] [str "a"] [] [(str "a", str "1")] [])
    (by decide) (by decide)

/-- C4, counterexample: get on a single-segment key that names a subtree
fails with the NotFound error, not with the Collision error the claim
specifies. -/
theorem claim4_counterexample :
    (do
      let t ← subMut emptyTree (str "y")
      getWith parseIntC t (str "y")) = Except.error (Err.notFoundKey (str "y") []) ∧
    Err.notFoundKey (str "y") [] ≠ Err.collision (str "y") := by
  constructor
  · decide
  · decide

/-- C4, amended: sub on a single-segment key stored as a leaf value fails
with the Collision error (both claim halves about sub hold), while get on
a single-segment key stored as a subtree name fails with the NotFound
error rather than Collision, because hasKey reports false for a
subtree-only key. -/
theorem claim4_theorem :
    (∀ (t : ConfigTree) (k : Str), ('.' ∈ k → False) → containsM t.values k = true →
      subMut t k = Except.error (Err.collision k) ∧
      ∀ fim, subConst t k fim = Except.error (Err.collision k)) ∧
    (∀ (n : Nat) (t : ConfigTree) (k : Str) {α : Type} (parse : Str → Except Err α),
      exclusiveN n t = true → ('.' ∈ k → False) → containsM t.subs k = true →
      getWith parse t k = Except.error (Err.notFoundKey k t.pfx)) := by
  constructor
  · intro t k hd hcv
    have hsp : splitDot k = [k] := splitDot_nodot k hd
    constructor
    · rw [subMut, hsp, subMutSeg_leaf]
      cases t with
      | node p vk sk vs ss => rw [subMut1, if_pos hcv]
    · intro fim
      rw [subConst, hsp, subConstSeg_leaf, subConst1, if_pos hcv]
  · intro n t k α parse hex hd hsub
    have hsp : splitDot k = [k] := splitDot_nodot k hd
    cases n with
    | zero => rw [exclusiveN_zero] at hex; exact absurd hex (by simp)
    | succ m =>
      have hvk : containsM t.values k = false := by
        by_contra hc
        rw [Bool.not_eq_false] at hc
        rcases hlook : lookupM t.values k with _ | v
        · rw [containsM, hlook] at hc; simp at hc
        · have := (exclusiveN_parts hex).1 _ (lookupM_mem hlook)
          rw [this] at hsub
          simp at hsub
      have hhk : hasKey t k = Except.ok false := by
        rw [hasKey, hsp, hasKeySeg_leaf, if_neg (by simp [hvk])]
      rw [getWith, hhk, exbind_ok]
      rfl

/-- C4, witness: the two clauses of claim4_theorem applied to concrete
one-entry trees. -/
theorem claim4_witness :
    subMut (ConfigTree.node [] [str "x"] [] [(str "x", str "1")] []) (str "x") =
      Except.error (Err.collision (str "x")) ∧
    getWith parseIntC (ConfigTree.node [] [] [str "y"] []
      [(str "y", ConfigTree.node (str "y.") [] [] [] [])]) (str "y") =
      Except.error (Err.notFoundKey (str "y") []) :=
  ⟨(claim4_theorem.1 (ConfigTree.node [] [str "x"] [] [(str "x", str "1")] []) (str "x")
      (by decide) (by decide)).1,
   claim4_theorem.2 2 (ConfigTree.node [] [] [str "y"] []
      [(str "y", ConfigTree.node (str "y.") [] [] [] [])]) (str "y") parseIntC
      (by decide) (by decide) (by decide)⟩

/-- C8, counterexample: the default-value accessor does fail when the
stored string does not parse at the requested type, against the claim
that it never fails. -/
theorem claim8_counterexample :
    (do
      let t ← setValue emptyTree (str "a") (str "xyz")
      getWithDefault parseIntC t (str "a") 5) =
      Except.error (Err.cannotParse (str "a") (Err.parseAs (str "int"))) := by decide

/-- C8, amended: on trees satisfying key-kind exclusivity to a depth
covering the path, the default-value accessor returns the default when no
value is stored at the path and otherwise behaves exactly like the
failing accessor, including its parse failures. -/
theorem claim8_theorem :
    ∀ {α : Type} (parse : Str → Except Err α) (n : Nat) (t : ConfigTree) (key : Str)
      (d : α), exclusiveN n t = true → (splitDot key).length ≤ n →
      ((lookupV t key = none → getWithDefault parse t key d = Except.ok d) ∧
        (∀ r, lookupV t key = some r →
          getWithDefault parse t key d = getWith parse t key)) := by
  intro α parse n t key d hex hlen
  have hhk : hasKey t key = Except.ok (lookupV t key).isSome :=
    hasKeySeg_lookupV (splitDot key) n t hex hlen
  constructor
  · intro hnone
    rw [getWithDefault, hhk, hnone, exbind_ok]
    rfl
  · intro r hsome
    rw [getWithDefault, hhk, hsome, exbind_ok]
    rfl

/-- C8, witness: both clauses of claim8_theorem at concrete trees, one
with the key absent and one with the key present. -/
theorem claim8_witness :
    getWithDefault parseIntC emptyTree (str "b") 5 = Except.ok 5 ∧
    getWithDefault parseIntC (ConfigTree.node [] [str "a"] [] [(str "a", str "7")] [])
        (str "a") 5 =
      getWith parseIntC (ConfigTree.node [] [str "a"] [] [(str "a", str "7")] [])
        (str "a") :=
  ⟨(claim8_theorem parseIntC 1 emptyTree (str "b") 5 (by decide) (by decide)).1 (by decide),
   (claim8_theorem parseIntC 2
      (ConfigTree.node [] [str "a"] [] [(str "a", str "7")] []) (str "a") 5
      (by decide) (by decide)).2 (str "7") (by decide)⟩

/-! The INI parser, ConfigTreeParser::readINITree.  The input stream is
modelled as the list of its lines. -/

/-- substr(0, find('#')): the line up to the first comment character. -/
def takeBeforeHash : Str → Str
  | [] => []
  | c :: cs => if c = '#' then [] else c :: takeBeforeHash cs

/-- Split the line at its first '=' character, if any (find('=') and the
two substr parts). -/
def findEq : Str → Option (Str × Str)
  | [] => none
  | c :: cs =>
    if c = '=' then some ([], cs)
    else
      match findEq cs with
      | some (pre, post) => some (c :: pre, post)
      | none => none

/-- The multiline-quote loop of readINITree: while the last
non-whitespace character of the accumulated value is not the quote,
append the next line after a newline; at end of input append the quote
character itself (after which the loop condition fails at once, so the
model returns directly).  When the accumulated value is entirely
whitespace the C++ dereferences rbegin() of an empty string, which is
undefined behaviour; the model reports it as the distinct emptyQuoteRead
error. -/
def quoteJoin (q : Char) : Str → List Str → Except Err (Str × List Str)
  | value, lines =>
    let r := rtrim value
    if r.isEmpty then Except.error Err.emptyQuoteRead
    else if r.getLast? = some q then Except.ok (value, lines)
    else
      match lines with
      | l :: rest => quoteJoin q (value ++ '\n' :: l) rest
      | [] => Except.ok (value ++ [q], [])

/-- The action one line of input produces: continue with a possibly
changed section prefix, store one key-value pair (with the lines left
after any multiline-quote consumption), or abort. -/
inductive LineAction where
  | skip (pre : Str)
  | store (key value : Str) (rest : List Str)
  | fail (e : Err)

/-- One iteration of the readINITree loop on an ltrimmed line: blank and
comment lines and section headers produce skip actions, and a line with
an equals sign produces the full dotted key and the processed value. -/
def lineStep (pre : Str) (line : Str) (rest : List Str) : LineAction :=
  let l := ltrim line
  match l with
  | [] => LineAction.skip pre
  | c :: _ =>
    if c = '#' then LineAction.skip pre
    else if c = '[' then
      let l2 := rtrim l
      if hl2 : l2 = [] then LineAction.skip pre
      else if l2.getLast hl2 = ']' then
        let p := rtrim (ltrim ((l2.drop 1).dropLast))
        LineAction.skip (if p = [] then [] else p ++ ['.'])
      else LineAction.skip pre
    else
      let l3 := takeBeforeHash l
      match findEq l3 with
      | none => LineAction.skip pre
      | some (before, after) =>
        let key := pre ++ rtrim (ltrim before)
        let rawv := ltrim after
        match rawv with
        | [] => LineAction.store key (rtrim rawv) rest
        | q :: vrest =>
          if q = '\'' || q = '"' then
            match quoteJoin q vrest rest with
            | Except.error e => LineAction.fail e
            | Except.ok (v1, rest') => LineAction.store key ((rtrim v1).dropLast) rest'
          else LineAction.store key (rtrim rawv) rest

/-- The body of the store branch: the duplicate check has already been
done; the overwrite flag short-circuits the hasKey test, and the store
goes through the mutable accessor. -/
def storeStep (ow : Bool) (pt : ConfigTree) (key value : Str) : Except Err ConfigTree :=
  match (if ow then Except.ok true else (hasKey pt key).map (fun b => !b) :
      Except Err Bool) with
  | Except.error e => Except.error e
  | Except.ok store =>
    if store then setValue pt key value else Except.ok pt

/-- The readINITree loop over the remaining lines; seen is the
keysInFile set, pre the active section prefix.  The fuel argument only
drives the recursion; readINITree supplies enough of it that the
outOfFuel branch is unreachable, since every iteration consumes at least
one line. -/
def readINIAux (ow : Bool) (src : Str) :
    Nat → List Str → Str → List Str → ConfigTree → Except Err ConfigTree
  | 0, _, _, _, _ => Except.error Err.outOfFuel
  | _ + 1, [], _, _, pt => Except.ok pt
  | fuel + 1, line :: rest, pre, seen, pt =>
    match lineStep pre line rest with
    | LineAction.skip pre' => readINIAux ow src fuel rest pre' seen pt
    | LineAction.fail e => Except.error e
    | LineAction.store key value rest' =>
      if key ∈ seen then Except.error (Err.duplicateKey key src)
      else
        match storeStep ow pt key value with
        | Except.error e => Except.error e
        | Except.ok pt' => readINIAux ow src fuel rest' pre (key :: seen) pt'

/-- ConfigTreeParser::readINITree on a list of input lines. -/
def readINITree (lines : List Str) (pt : ConfigTree) (src : Str) (ow : Bool) :
    Except Err ConfigTree :=
  readINIAux ow src (lines.length + 1) lines [] [] pt

/-- The sequence of key-value pairs the parse would store, in input
order, computed by the same per-line step function; on a failing quote
line the parse aborts, so the trace ends there. -/
def valTrace : Nat → List Str → Str → List (Str × Str)
  | 0, _, _ => []
  | _ + 1, [], _ => []
  | fuel + 1, line :: rest, pre =>
    match lineStep pre line rest with
    | LineAction.skip pre' => valTrace fuel rest pre'
    | LineAction.fail _ => []
    | LineAction.store key value rest' => (key, value) :: valTrace fuel rest' pre

/-- The fully qualified keys the parse stores, in input order. -/
def keyTrace (fuel : Nat) (lines : List Str) (pre : Str) : List Str :=
  (valTrace fuel lines pre).map Prod.fst

/-- The error of a fallible result, if any; gives decidable statements
about results whose success value carries a tree. -/
def errOf {α : Type} : Except Err α → Option Err
  | Except.error e => some e
  | Except.ok _ => none

/-! Lemmas tracking stored values through the mutable accessor. -/

theorem lookupVSeg_setPfx (t : ConfigTree) (p : Str) :
    ∀ path, lookupVSeg (setPfx t p) path = lookupVSeg t path := by
  intro path
  cases t with
  | node q vk sk vs ss => rcases path with _ | ⟨k, _ | ⟨k2, rest⟩⟩ <;> rfl

theorem lookupVSeg_emptyTree : ∀ path, lookupVSeg emptyTree path = none := by
  intro path
  rcases path with _ | ⟨k, _ | ⟨k2, rest⟩⟩ <;> rfl

/-- A value just stored is looked up back. -/
theorem setValueSeg_lookup_self :
    ∀ (path : List Str) (t t' : ConfigTree) (v : Str), path ≠ [] →
      setValueSeg t path v = Except.ok t' → lookupVSeg t' path = some v := by
  intro path
  induction path with
  | nil => intro t t' v h; exact absurd rfl h
  | cons k rest ih =>
    intro t t' v _ h
    cases rest with
    | nil =>
      rw [setValueSeg_leaf] at h
      rcases hk : hasKeySeg t [k] with e | b
      · rw [hk, exbind_err] at h; exact absurd h (by simp)
      · rw [hk, exbind_ok] at h
        cases t with
        | node p vk sk vs ss =>
          simp only [] at h
          have ht' := Except.ok.inj h
          rw [← ht', lookupVSeg_leaf]
          exact lookupM_insertM_self k v vs
    | cons k2 rest2 =>
      rw [setValueSeg_cons] at h
      rcases h1 : subMut1 t k with e | t1
      · rw [h1, exbind_err] at h; exact absurd h (by simp)
      · rw [h1, exbind_ok] at h
        rcases subMut1_ok h1 with ⟨-, -, hsubs⟩
        have hl : lookupM t1.subs k =
            some (setPfx ((lookupM t.subs k).getD emptyTree) (t.pfx ++ k ++ ['.'])) := by
          rw [hsubs, lookupM_insertM_self]
        rw [hl] at h
        simp only [] at h
        rcases h2 : setValueSeg
            (setPfx ((lookupM t.subs k).getD emptyTree) (t.pfx ++ k ++ ['.']))
            (k2 :: rest2) v with e | c'
        · rw [h2, exbind_err] at h; exact absurd h (by simp)
        · rw [h2, exbind_ok] at h
          have ht' := Except.ok.inj h
          rw [← ht', lookupVSeg_cons, replaceSub_subs, hsubs, insertM_insertM_self,
            lookupM_insertM_self]
          exact ih _ c' v (by simp) h2

/-- Storing at one path does not change the value at a different path. -/
theorem setValueSeg_lookup_ne :
    ∀ (ps qs : List Str) (t t' : ConfigTree) (v : Str),
      setValueSeg t ps v = Except.ok t' → ps ≠ [] → qs ≠ [] → qs ≠ ps →
      lookupVSeg t' qs = lookupVSeg t qs := by
  intro ps
  induction ps with
  | nil => intro qs t t' v _ h; exact absurd rfl h
  | cons k rest ih =>
    intro qs t t' v h _ hq hne
    cases rest with
    | nil =>
      rw [setValueSeg_leaf] at h
      rcases hk : hasKeySeg t [k] with e | b
      · rw [hk, exbind_err] at h; exact absurd h (by simp)
      · rw [hk, exbind_ok] at h
        cases t with
        | node p vk sk vs ss =>
          simp only [] at h
          have ht' := Except.ok.inj h
          rcases qs with _ | ⟨q1, _ | ⟨q2, qr⟩⟩
          · exact absurd rfl hq
          · have hq1 : q1 ≠ k := fun he => hne (by rw [he])
            rw [← ht', lookupVSeg_leaf, lookupVSeg_leaf]
            exact lookupM_insertM_ne k q1 v hq1 vs
          · rw [← ht', lookupVSeg_cons, lookupVSeg_cons]
            rfl
    | cons k2 rest2 =>
      rw [setValueSeg_cons] at h
      rcases h1 : subMut1 t k with e | t1
      · rw [h1, exbind_err] at h; exact absurd h (by simp)
      · rw [h1, exbind_ok] at h
        rcases subMut1_ok h1 with ⟨-, hval, hsubs⟩
        have hl : lookupM t1.subs k =
            some (setPfx ((lookupM t.subs k).getD emptyTree) (t.pfx ++ k ++ ['.'])) := by
          rw [hsubs, lookupM_insertM_self]
        rw [hl] at h
        simp only [] at h
        rcases h2 : setValueSeg
            (setPfx ((lookupM t.subs k).getD emptyTree) (t.pfx ++ k ++ ['.']))
            (k2 :: rest2) v with e | c'
        · rw [h2, exbind_err] at h; exact absurd h (by simp)
        · rw [h2, exbind_ok] at h
          have ht' := Except.ok.inj h
          rcases qs with _ | ⟨q1, _ | ⟨q2, qr⟩⟩
          · exact absurd rfl hq
          · rw [← ht', lookupVSeg_leaf, lookupVSeg_leaf, replaceSub_values, hval]
          · by_cases hq1 : q1 = k
            · subst hq1
              have htail : (q2 :: qr) ≠ (k2 :: rest2) := fun he => hne (by rw [he])
              rw [← ht', lookupVSeg_cons, lookupVSeg_cons, replaceSub_subs, hsubs,
                insertM_insertM_self, lookupM_insertM_self]
              have hrec := ih (q2 :: qr) _ c' v h2 (by simp) (by simp) htail
              rw [lookupVSeg_setPfx] at hrec
              rcases hls : lookupM t.subs q1 with _ | c0
              · rw [hls] at hrec
                simp only [Option.getD_none] at hrec
                rw [lookupVSeg_emptyTree] at hrec
                exact hrec
              · rw [hls] at hrec
                simp only [Option.getD_some] at hrec
                exact hrec
            · rw [← ht', lookupVSeg_cons, lookupVSeg_cons, replaceSub_subs, hsubs,
                insertM_insertM_self, lookupM_insertM_ne k q1 c' hq1]

/-- Whenever hasKey returns a boolean, that boolean is exactly whether a
value is stored at the path (no exclusivity assumption; collision states
make hasKey fail instead of answering). -/
theorem hasKeySeg_ok_isSome :
    ∀ (path : List Str) (t : ConfigTree) (b : Bool),
      hasKeySeg t path = Except.ok b → b = (lookupVSeg t path).isSome := by
  intro path
  induction path with
  | nil =>
    intro t b h
    have hb := Except.ok.inj h
    rw [← hb]
    rfl
  | cons k rest ih =>
    intro t b h
    cases rest with
    | nil =>
      rw [hasKeySeg_leaf] at h
      by_cases hvk : containsM t.values k = true
      · rw [if_pos hvk] at h
        by_cases hsk : containsM t.subs k = true
        · rw [if_pos hsk] at h
          exact absurd h (by simp)
        · rw [if_neg hsk] at h
          have hb := Except.ok.inj h
          rw [← hb, lookupVSeg_leaf]
          rw [containsM] at hvk
          exact hvk.symm
      · rw [if_neg hvk] at h
        have hb := Except.ok.inj h
        rw [← hb, lookupVSeg_leaf]
        rw [containsM] at hvk
        simp only [Bool.not_eq_true] at hvk
        exact hvk.symm
    | cons k2 rest2 =>
      rw [hasKeySeg_cons] at h
      rcases hls : lookupM t.subs k with _ | c
      · have hsub : containsM t.subs k = false := by rw [containsM, hls]; rfl
        rw [if_pos hsub] at h
        have hb := Except.ok.inj h
        rw [← hb, lookupVSeg_cons, hls]
        rfl
      · have hsub : containsM t.subs k = true := by rw [containsM, hls]; rfl
        rw [if_neg (by simp [hsub])] at h
        by_cases hvk : containsM t.values k = true
        · rw [if_pos hvk] at h
          exact absurd h (by simp)
        · rw [if_neg hvk] at h
          have hcs : subConstSeg t [k] false = Except.ok c := by
            rw [subConstSeg_leaf, subConst1, if_neg hvk, hls]
          rw [hcs, exbind_ok] at h
          rw [lookupVSeg_cons, hls]
          exact ih c b h

/-! Injectivity of the dotted-key segmentation. -/

/-- Joining segments with dots, the inverse of splitDot. -/
def joinSegs : List Str → Str
  | [] => []
  | [x] => x
  | x :: xs => x ++ '.' :: joinSegs xs

theorem splitDot_ne_nil : ∀ s : Str, splitDot s ≠ [] := by
  intro s
  cases s with
  | nil => simp [splitDot]
  | cons c cs =>
    rw [splitDot]
    by_cases hc : c = '.'
    · simp [hc]
    · rw [if_neg hc]
      rcases h : splitDot cs with _ | ⟨s0, ss⟩
      · simp
      · simp

theorem joinSegs_splitDot : ∀ s : Str, joinSegs (splitDot s) = s := by
  intro s
  induction s with
  | nil => rfl
  | cons c cs ih =>
    rw [splitDot]
    by_cases hc : c = '.'
    · rw [if_pos hc]
      rcases h : splitDot cs with _ | ⟨s0, ss⟩
      · exact absurd h (splitDot_ne_nil cs)
      · rw [h] at ih
        show [] ++ '.' :: joinSegs (s0 :: ss) = c :: cs
        rw [List.nil_append, ih, hc]
    · rw [if_neg hc]
      rcases h : splitDot cs with _ | ⟨s0, ss⟩
      · exact absurd h (splitDot_ne_nil cs)
      · rw [h] at ih
        cases ss with
        | nil =>
          show c :: s0 = c :: cs
          rw [show joinSegs [s0] = s0 from rfl] at ih
          rw [ih]
        | cons s1 ss' =>
          show (c :: s0) ++ '.' :: joinSegs (s1 :: ss') = c :: cs
          rw [List.cons_append]
          rw [show joinSegs (s0 :: s1 :: ss') = s0 ++ '.' :: joinSegs (s1 :: ss') from rfl]
            at ih
          rw [ih]

theorem splitDot_inj {a b : Str} (h : splitDot a = splitDot b) : a = b := by
  have ha := joinSegs_splitDot a
  rw [h, joinSegs_splitDot b] at ha
  exact ha.symm

/-! Dotted-key level corollaries. -/

theorem setValue_lookup_self {t t' : ConfigTree} {p v : Str}
    (h : setValue t p v = Except.ok t') : lookupV t' p = some v :=
  setValueSeg_lookup_self (splitDot p) t t' v (splitDot_ne_nil p) h

theorem setValue_lookup_ne {t t' : ConfigTree} {p q v : Str}
    (h : setValue t p v = Except.ok t') (hne : q ≠ p) : lookupV t' q = lookupV t q :=
  setValueSeg_lookup_ne (splitDot p) (splitDot q) t t' v h (splitDot_ne_nil p)
    (splitDot_ne_nil q) (fun he => hne (splitDot_inj he))

theorem hasKey_ok_isSome {t : ConfigTree} {k : Str} {b : Bool}
    (h : hasKey t k = Except.ok b) : b = (lookupV t k).isSome :=
  hasKeySeg_ok_isSome (splitDot k) t b h

theorem exmap_ok {α β : Type} (a : α) (f : α → β) :
    (Except.ok a : Except Err α).map f = Except.ok (f a) := rfl

theorem exmap_err {α β : Type} (e : Err) (f : α → β) :
    (Except.error e : Except Err α).map f = Except.error e := rfl

/-- Storing one pair leaves every other key unchanged. -/
theorem storeStep_lookup_ne {ow : Bool} {pt pt' : ConfigTree} {key value k : Str}
    (h : storeStep ow pt key value = Except.ok pt') (hne : k ≠ key) :
    lookupV pt' k = lookupV pt k := by
  rw [storeStep] at h
  cases ow with
  | true =>
    rw [if_pos rfl] at h
    simp only [] at h
    rw [if_pos trivial] at h
    exact setValue_lookup_ne h hne
  | false =>
    rw [if_neg (by simp)] at h
    rcases hk : hasKey pt key with e | b
    · rw [hk, exmap_err] at h
      simp only [] at h
      exact absurd h (by simp)
    · rw [hk, exmap_ok] at h
      simp only [] at h
      by_cases hb : (!b) = true
      · rw [if_pos hb] at h
        exact setValue_lookup_ne h hne
      · rw [if_neg hb] at h
        have ht := Except.ok.inj h
        rw [← ht]

/-- The value a store step leaves at its own key: the input's value under
overwrite, otherwise the previous value when the key already had one. -/
theorem storeStep_lookup_self {ow : Bool} {pt pt' : ConfigTree} {key value : Str}
    (h : storeStep ow pt key value = Except.ok pt') :
    lookupV pt' key = some (if ow then value else (lookupV pt key).getD value) := by
  rw [storeStep] at h
  cases ow with
  | true =>
    rw [if_pos rfl] at h
    simp only [] at h
    rw [if_pos trivial] at h
    rw [setValue_lookup_self h]
    simp
  | false =>
    rw [if_neg (by simp)] at h
    rcases hk : hasKey pt key with e | b
    · rw [hk, exmap_err] at h
      simp only [] at h
      exact absurd h (by simp)
    · rw [hk, exmap_ok] at h
      simp only [] at h
      have hb := hasKey_ok_isSome hk
      by_cases hbb : (!b) = true
      · rw [if_pos hbb] at h
        have hnone : lookupV pt key = none := by
          rcases hl : lookupV pt key with _ | w
          · rfl
          · rw [hl] at hb
            simp only [Option.isSome_some] at hb
            rw [hb] at hbb
            simp at hbb
        rw [setValue_lookup_self h, hnone]
        simp
      · rw [if_neg hbb] at h
        have ht := Except.ok.inj h
        have hsome : ∃ w, lookupV pt key = some w := by
          rcases hl : lookupV pt key with _ | w
          · rw [hl] at hb
            simp only [Option.isSome_none] at hb
            rw [hb] at hbb
            simp at hbb
          · exact ⟨w, rfl⟩
        rcases hsome with ⟨w, hw⟩
        rw [← ht, hw]
        simp

/-- A successful parse never stores the same fully qualified key twice:
the stored-key trace is duplicate-free and disjoint from the keysInFile
set the loop started with. -/
theorem readINIAux_nodup :
    ∀ (fuel : Nat) (lines : List Str) (pre : Str) (seen : List Str) (pt : ConfigTree)
      (ow : Bool) (src : Str) (t : ConfigTree),
      readINIAux ow src fuel lines pre seen pt = Except.ok t →
      (∀ k ∈ keyTrace fuel lines pre, ¬ k ∈ seen) ∧ (keyTrace fuel lines pre).Nodup := by
  intro fuel
  induction fuel with
  | zero =>
    intro lines pre seen pt ow src t h
    exact absurd h (by simp [readINIAux])
  | succ f ih =>
    intro lines pre seen pt ow src t h
    cases lines with
    | nil =>
      constructor
      · intro k hk
        simp [keyTrace, valTrace] at hk
      · simp [keyTrace, valTrace]
    | cons line rest =>
      rcases hstep : lineStep pre line rest with pre' | ⟨key, value, rest'⟩ | e
      · simp only [readINIAux, hstep] at h
        have hkt : keyTrace (f + 1) (line :: rest) pre = keyTrace f rest pre' := by
          simp only [keyTrace, valTrace, hstep]
        rw [hkt]
        exact ih rest pre' seen pt ow src t h
      · simp only [readINIAux, hstep] at h
        by_cases hseen : key ∈ seen
        · rw [if_pos hseen] at h
          exact absurd h (by simp)
        · rw [if_neg hseen] at h
          rcases hss : storeStep ow pt key value with e | pt'
          · rw [hss] at h
            simp only [] at h
            exact absurd h (by simp)
          · rw [hss] at h
            simp only [] at h
            rcases ih rest' pre (key :: seen) pt' ow src t h with ⟨hdis, hnd⟩
            have hkt : keyTrace (f + 1) (line :: rest) pre = key :: keyTrace f rest' pre := by
              simp only [keyTrace, valTrace, hstep, List.map_cons]
            rw [hkt]
            constructor
            · intro k hk
              rcases List.mem_cons.mp hk with hk | hk
              · subst hk; exact hseen
              · exact fun hks => hdis k hk (List.mem_cons_of_mem _ hks)
            · rw [List.nodup_cons]
              exact ⟨fun hkd => hdis key hkd (List.mem_cons_self _ _), hnd⟩
      · simp only [readINIAux, hstep] at h
        exact absurd h (by simp)

/-- Keys the parse never stores keep the value they had in the input tree. -/
theorem readINIAux_untouched :
    ∀ (fuel : Nat) (lines : List Str) (pre : Str) (seen : List Str) (pt : ConfigTree)
      (ow : Bool) (src : Str) (t : ConfigTree) (k : Str),
      readINIAux ow src fuel lines pre seen pt = Except.ok t →
      ¬ k ∈ keyTrace fuel lines pre → lookupV t k = lookupV pt k := by
  intro fuel
  induction fuel with
  | zero =>
    intro lines pre seen pt ow src t k h
    exact absurd h (by simp [readINIAux])
  | succ f ih =>
    intro lines pre seen pt ow src t k h hmem
    cases lines with
    | nil =>
      have ht := Except.ok.inj h
      rw [← ht]
    | cons line rest =>
      rcases hstep : lineStep pre line rest with pre' | ⟨key, value, rest'⟩ | e
      · simp only [readINIAux, hstep] at h
        have hkt : keyTrace (f + 1) (line :: rest) pre = keyTrace f rest pre' := by
          simp only [keyTrace, valTrace, hstep]
        rw [hkt] at hmem
        exact ih rest pre' seen pt ow src t k h hmem
      · simp only [readINIAux, hstep] at h
        have hkt : keyTrace (f + 1) (line :: rest) pre = key :: keyTrace f rest' pre := by
          simp only [keyTrace, valTrace, hstep, List.map_cons]
        rw [hkt] at hmem
        have hkne : k ≠ key := fun he => hmem (he ▸ List.mem_cons_self _ _)
        have hmem' : ¬ k ∈ keyTrace f rest' pre :=
          fun hm => hmem (List.mem_cons_of_mem _ hm)
        by_cases hseen : key ∈ seen
        · rw [if_pos hseen] at h
          exact absurd h (by simp)
        · rw [if_neg hseen] at h
          rcases hss : storeStep ow pt key value with e | pt'
          · rw [hss] at h
            simp only [] at h
            exact absurd h (by simp)
          · rw [hss] at h
            simp only [] at h
            rw [ih rest' pre (key :: seen) pt' ow src t k h hmem']
            exact storeStep_lookup_ne hss hkne
      · simp only [readINIAux, hstep] at h
        exact absurd h (by simp)

/-- The value the parse leaves at each stored key: the input's value when
overwriting, else the tree's previous value when the key already had one. -/
theorem readINIAux_values :
    ∀ (fuel : Nat) (lines : List Str) (pre : Str) (seen : List Str) (pt : ConfigTree)
      (ow : Bool) (src : Str) (t : ConfigTree) (k v : Str),
      readINIAux ow src fuel lines pre seen pt = Except.ok t →
      (k, v) ∈ valTrace fuel lines pre →
      lookupV t k = some (if ow then v else (lookupV pt k).getD v) := by
  intro fuel
  induction fuel with
  | zero =>
    intro lines pre seen pt ow src t k v h
    exact absurd h (by simp [readINIAux])
  | succ f ih =>
    intro lines pre seen pt ow src t k v h hmem
    cases lines with
    | nil => simp [valTrace] at hmem
    | cons line rest =>
      rcases hstep : lineStep pre line rest with pre' | ⟨key, value, rest'⟩ | e
      · simp only [readINIAux, hstep] at h
        have hvt : valTrace (f + 1) (line :: rest) pre = valTrace f rest pre' := by
          simp only [valTrace, hstep]
        rw [hvt] at hmem
        exact ih rest pre' seen pt ow src t k v h hmem
      · simp only [readINIAux, hstep] at h
        have hvt : valTrace (f + 1) (line :: rest) pre =
            (key, value) :: valTrace f rest' pre := by
          simp only [valTrace, hstep]
        rw [hvt] at hmem
        by_cases hseen : key ∈ seen
        · rw [if_pos hseen] at h
          exact absurd h (by simp)
        · rw [if_neg hseen] at h
          rcases hss : storeStep ow pt key value with e | pt'
          · rw [hss] at h
            simp only [] at h
            exact absurd h (by simp)
          · rw [hss] at h
            simp only [] at h
            rcases readINIAux_nodup f rest' pre (key :: seen) pt' ow src t h with ⟨hdis, -⟩
            rcases List.mem_cons.mp hmem with hkv | hkv
            · have hk : k = key := congrArg Prod.fst hkv
              have hv : v = value := congrArg Prod.snd hkv
              subst hk
              subst hv
              have hnot : ¬ k ∈ keyTrace f rest' pre :=
                fun hm => hdis k hm (List.mem_cons_self _ _)
              rw [readINIAux_untouched f rest' pre (k :: seen) pt' ow src t k h hnot]
              exact storeStep_lookup_self hss
            · have hkmem : k ∈ keyTrace f rest' pre := by
                rw [keyTrace]
                exact List.mem_map_of_mem Prod.fst hkv
              have hkne : k ≠ key :=
                fun he => hdis k hkmem (he ▸ List.mem_cons_self _ _)
              rw [ih rest' pre (key :: seen) pt' ow src t k v h hkv,
                storeStep_lookup_ne hss hkne]
      · simp only [readINIAux, hstep] at h
        exact absurd h (by simp)

/-- C9: within a single readINITree parse, meeting the same fully
qualified key twice is a hard error for either overwrite flag (a
successful parse therefore stores a duplicate-free key sequence, and the
concrete duplicate input fails with the DuplicateKey error under both
flags); the overwrite flag only decides whether a key that already
existed before the parse gets the input's value or keeps its previous
one. -/
theorem claim9_theorem :
    (∀ (lines : List Str) (pt : ConfigTree) (ow : Bool) (src : Str) (t : ConfigTree),
      readINITree lines pt src ow = Except.ok t →
      (keyTrace (lines.length + 1) lines []).Nodup) ∧
    (∀ (lines : List Str) (pt : ConfigTree) (ow : Bool) (src : Str) (t : ConfigTree)
      (k v : Str), readINITree lines pt src ow = Except.ok t →
      (k, v) ∈ valTrace (lines.length + 1) lines [] →
      lookupV t k = some (if ow then v else (lookupV pt k).getD v)) ∧
    (errOf (readINITree [str "x = 1", str "x = 2"] emptyTree (str "s") true) =
        some (Err.duplicateKey (str "x") (str "s")) ∧
      errOf (readINITree [str "x = 1", str "x = 2"] emptyTree (str "s") false) =
        some (Err.duplicateKey (str "x") (str "s"))) := by
  refine ⟨?_, ?_, by decide, by decide⟩
  · intro lines pt ow src t h
    exact (readINIAux_nodup (lines.length + 1) lines [] [] pt ow src t h).2
  · intro lines pt ow src t k v h hm
    exact readINIAux_values (lines.length + 1) lines [] [] pt ow src t k v h hm

/-- C9, witness: a one-line parse with overwrite disabled onto a tree
that already holds the key keeps the previous value. -/
theorem claim9_witness :
    lookupV (ConfigTree.node [] [str "x"] [] [(str "x", str "old")] []) (str "x") =
      some (if (false : Bool) then str "new"
        else (lookupV (ConfigTree.node [] [str "x"] [] [(str "x", str "old")] [])
          (str "x")).getD (str "new")) :=
  claim9_theorem.2.1 [str "x = new"]
    (ConfigTree.node [] [str "x"] [] [(str "x", str "old")] []) false (str "s")
    (ConfigTree.node [] [str "x"] [] [(str "x", str "old")] []) (str "x") (str "new")
    rfl (by decide)

/-! C10: quoted values that are never closed before the input ends. -/

/-- The newline-joined continuation lines, as the quote loop accumulates
them. -/
def nlJoin : List Str → Str
  | [] => []
  | l :: rest => '\n' :: l ++ nlJoin rest

/-- The closing condition never fires: at every check the accumulated
value has a last non-whitespace character and it is not the quote. -/
def neverClosesB (q : Char) : Str → List Str → Bool
  | acc, lines =>
    let r := rtrim acc
    if r.isEmpty then false
    else if r.getLast? = some q then false
    else
      match lines with
      | [] => true
      | l :: rest => neverClosesB q (acc ++ '\n' :: l) rest

/-- Keys a report-style value line can carry without interfering with the
line parsing: nonempty, free of whitespace, '#' and '=', and not starting
with '['. -/
def goodKeyB (k : Str) : Bool :=
  !k.isEmpty && k.all (fun c => !isWs c && !(c = '#') && !(c = '=')) &&
    !(k.head? = some '[')

/-- Under the never-closing condition the quote loop consumes the whole
input and appends the quote character itself. -/
theorem quoteJoin_neverCloses :
    ∀ (lines : List Str) (q : Char) (acc : Str), neverClosesB q acc lines = true →
      quoteJoin q acc lines = Except.ok (acc ++ nlJoin lines ++ [q], []) := by
  intro lines
  induction lines with
  | nil =>
    intro q acc h
    simp only [neverClosesB] at h
    simp only [quoteJoin]
    by_cases hr : (rtrim acc).isEmpty = true
    · rw [if_pos hr] at h
      simp at h
    · rw [if_neg hr] at h ⊢
      by_cases hq : (rtrim acc).getLast? = some q
      · rw [if_pos hq] at h
        simp at h
      · rw [if_neg hq]
        simp [nlJoin]
  | cons l rest ih =>
    intro q acc h
    simp only [neverClosesB] at h
    simp only [quoteJoin]
    by_cases hr : (rtrim acc).isEmpty = true
    · rw [if_pos hr] at h
      simp at h
    · rw [if_neg hr] at h ⊢
      by_cases hq : (rtrim acc).getLast? = some q
      · rw [if_pos hq] at h
        simp at h
      · rw [if_neg hq] at h ⊢
        rw [ih q (acc ++ '\n' :: l) h]
        simp [nlJoin, List.append_assoc]

/-! Helper facts about trimming and splitting of well-behaved lines. -/

theorem ltrim_cons_nonws {c : Char} (h : isWs c = false) (x : Str) :
    ltrim (c :: x) = c :: x := by
  rw [ltrim, if_neg (by simp [h])]

theorem ltrim_cons_ws {c : Char} (h : isWs c = true) (x : Str) :
    ltrim (c :: x) = ltrim x := by
  rw [ltrim, if_pos (by simp [h])]

theorem ltrim_allnonws {m : Str} (h : ∀ c ∈ m, isWs c = false) : ltrim m = m := by
  cases m with
  | nil => rfl
  | cons c x => exact ltrim_cons_nonws (h c (List.mem_cons_self c x)) x

theorem rtrim_append_ws {k : Str} (hk : ∀ c ∈ k, isWs c = false) :
    rtrim (k ++ [' ']) = k := by
  rw [rtrim, List.reverse_append]
  show (ltrim (' ' :: k.reverse)).reverse = k
  rw [ltrim_cons_ws (by decide), ltrim_allnonws (fun c hc => hk c (List.mem_reverse.mp hc)),
    List.reverse_reverse]

theorem rtrim_concat_nonws {x : Str} {q : Char} (h : isWs q = false) :
    rtrim (x ++ [q]) = x ++ [q] := by
  rw [rtrim, List.reverse_append]
  show (ltrim (q :: x.reverse)).reverse = x ++ [q]
  rw [ltrim_cons_nonws h, List.reverse_cons, List.reverse_reverse]

theorem takeBeforeHash_all {l : Str} (h : ∀ c ∈ l, ¬(c = '#')) :
    takeBeforeHash l = l := by
  induction l with
  | nil => rfl
  | cons c x ih =>
    rw [takeBeforeHash, if_neg (h c (List.mem_cons_self c x)),
      ih (fun d hd => h d (List.mem_cons_of_mem c hd))]

theorem findEq_append {a : Str} (b : Str) (h : ∀ c ∈ a, ¬(c = '=')) :
    findEq (a ++ '=' :: b) = some (a, b) := by
  induction a with
  | nil => simp [findEq]
  | cons c x ih =>
    rw [List.cons_append, findEq, if_neg (h c (List.mem_cons_self c x)),
      ih (fun d hd => h d (List.mem_cons_of_mem c hd))]

theorem hasKeySeg_emptyTree : ∀ path, hasKeySeg emptyTree path = Except.ok false := by
  intro path
  rcases path with _ | ⟨k, _ | ⟨k2, rest⟩⟩
  · rfl
  · rw [hasKeySeg_leaf, if_neg (by simp [containsM, lookupM])]
  · rw [hasKeySeg_cons, if_pos (by simp [containsM, lookupM])]

/-- storeStep on the empty tree always stores, for either overwrite
flag. -/
theorem storeStep_emptyTree (ow : Bool) (key value : Str) :
    storeStep ow emptyTree key value = setValue emptyTree key value := by
  cases ow with
  | true =>
    rw [storeStep, if_pos rfl]
    simp only []
    rw [if_pos trivial]
  | false =>
    rw [storeStep, if_neg (by simp)]
    rw [show hasKey emptyTree key = Except.ok false from hasKeySeg_emptyTree (splitDot key)]
    rw [exmap_ok]
    simp only []
    rw [if_pos (by decide)]

/-- Storing into a tree with empty maps always succeeds. -/
theorem setValueSeg_bare :
    ∀ (path : List Str) (p : Str) (vk sk : List Str) (v : Str), path ≠ [] →
      ∃ t', setValueSeg (ConfigTree.node p vk sk [] []) path v = Except.ok t' := by
  intro path
  induction path with
  | nil => intro p vk sk v h; exact absurd rfl h
  | cons k rest ih =>
    intro p vk sk v _
    cases rest with
    | nil => exact ⟨_, rfl⟩
    | cons k2 r =>
      rcases ih (p ++ k ++ ['.']) [] [] v (by simp) with ⟨c', hc'⟩
      refine ⟨replaceSub
        (ConfigTree.node p vk (sk ++ [k]) []
          [(k, ConfigTree.node (p ++ k ++ ['.']) [] [] [] [])]) k c', ?_⟩
      rw [setValueSeg_cons]
      rw [show subMut1 (ConfigTree.node p vk sk [] []) k =
        Except.ok (ConfigTree.node p vk (sk ++ [k]) []
          [(k, ConfigTree.node (p ++ k ++ ['.']) [] [] [] [])]) from rfl, exbind_ok]
      rw [show lookupM (ConfigTree.node p vk (sk ++ [k]) []
          [(k, ConfigTree.node (p ++ k ++ ['.']) [] [] [] [])]).subs k =
        some (ConfigTree.node (p ++ k ++ ['.']) [] [] [] []) from by simp [lookupM]]
      simp only []
      rw [hc', exbind_ok]

/-- A quoted key line whose value never closes: the line parses to a
store action carrying the newline-joined accumulated value and consuming
the entire remaining input. -/
theorem lineStep_quote_eof :
    ∀ (q : Char) (key r0 : Str) (lines : List Str), (q = '\'' ∨ q = '"') →
      goodKeyB key = true → (∀ c ∈ r0, ¬(c = '#')) →
      neverClosesB q r0 lines = true →
      lineStep [] (key ++ ' ' :: '=' :: ' ' :: q :: r0) lines =
        LineAction.store key (r0 ++ nlJoin lines) [] := by
  intro q key r0 lines hq hgk hr0 hnc
  have hqws : isWs q = false := by rcases hq with h | h <;> subst h <;> decide
  have hqhash : ¬(q = '#') := by rcases hq with h | h <;> subst h <;> decide
  rw [goodKeyB, Bool.and_eq_true, Bool.and_eq_true] at hgk
  rcases hgk with ⟨⟨hne, hall⟩, hhead⟩
  rw [List.all_eq_true] at hall
  cases key with
  | nil => simp at hne
  | cons kc ktail =>
    have hkc := hall kc (List.mem_cons_self kc ktail)
    rw [Bool.and_eq_true, Bool.and_eq_true] at hkc
    have hkcws : isWs kc = false := by simpa using hkc.1.1
    have hkchash : ¬(kc = '#') := by simpa using hkc.1.2
    have hkcbr : ¬(kc = '[') := by simpa using hhead
    have hallws : ∀ c ∈ kc :: ktail, isWs c = false := by
      intro c hc
      have := hall c hc
      rw [Bool.and_eq_true, Bool.and_eq_true] at this
      simpa using this.1.1
    have hallhash : ∀ c ∈ kc :: ktail, ¬(c = '#') := by
      intro c hc
      have := hall c hc
      rw [Bool.and_eq_true, Bool.and_eq_true] at this
      simpa using this.1.2
    have halleq : ∀ c ∈ kc :: ktail, ¬(c = '=') := by
      intro c hc
      have := hall c hc
      rw [Bool.and_eq_true, Bool.and_eq_true] at this
      simpa using this.2
    have hltrim : ltrim ((kc :: ktail) ++ ' ' :: '=' :: ' ' :: q :: r0) =
        kc :: (ktail ++ ' ' :: '=' :: ' ' :: q :: r0) := by
      rw [List.cons_append]
      exact ltrim_cons_nonws hkcws _
    have hhash_line : ∀ c ∈ kc :: (ktail ++ ' ' :: '=' :: ' ' :: q :: r0),
        ¬(c = '#') := by
      intro c hc hcontra
      subst hcontra
      rcases List.mem_cons.mp hc with hc | hc
      · exact hkchash hc.symm
      · rcases List.mem_append.mp hc with hc | hc
        · exact hallhash '#' (List.mem_cons_of_mem kc hc) rfl
        · rcases List.mem_cons.mp hc with hc | hc
          · exact absurd hc (by decide)
          · rcases List.mem_cons.mp hc with hc | hc
            · exact absurd hc (by decide)
            · rcases List.mem_cons.mp hc with hc | hc
              · exact absurd hc (by decide)
              · rcases List.mem_cons.mp hc with hc | hc
                · exact hqhash hc.symm
                · exact hr0 '#' hc rfl
    have hform : kc :: (ktail ++ ' ' :: '=' :: ' ' :: q :: r0) =
        ((kc :: ktail) ++ [' ']) ++ '=' :: (' ' :: q :: r0) := by
      simp
    have hnoeq : ∀ c ∈ (kc :: ktail) ++ [' '], ¬(c = '=') := by
      intro c hc
      rcases List.mem_append.mp hc with hc | hc
      · exact halleq c hc
      · intro hcontra
        subst hcontra
        simp at hc
    have hfe : findEq (kc :: (ktail ++ ' ' :: '=' :: ' ' :: q :: r0)) =
        some ((kc :: ktail) ++ [' '], ' ' :: q :: r0) := by
      rw [hform]
      exact findEq_append _ hnoeq
    have hkltr : rtrim (ltrim ((kc :: ktail) ++ [' '])) = kc :: ktail := by
      rw [show (kc :: ktail) ++ [' '] = kc :: (ktail ++ [' ']) from rfl,
        ltrim_cons_nonws hkcws,
        show kc :: (ktail ++ [' ']) = (kc :: ktail) ++ [' '] from rfl]
      exact rtrim_append_ws hallws
    have hrawv : ltrim (' ' :: q :: r0) = q :: r0 := by
      rw [ltrim_cons_ws (by decide)]
      exact ltrim_cons_nonws hqws r0
    simp only [lineStep, hltrim, hkchash, hkcbr, if_false,
      takeBeforeHash_all hhash_line, hfe, List.nil_append, hkltr, hrawv]
    rw [if_pos (by rcases hq with h | h <;> subst h <;> decide)]
    rw [quoteJoin_neverCloses lines q r0 hnc]
    simp only []
    rw [rtrim_concat_nonws hqws, List.dropLast_concat]

/-- C10: when an INI value opens with a single or double quote and no
later check finds the matching closing quote, readINITree consumes the
whole remaining input into the value, appends the quote character itself
at end of input, and terminates normally, storing everything accumulated
including the inserted newlines. -/
theorem claim10_theorem :
    ∀ (q : Char) (key r0 : Str) (lines : List Str) (ow : Bool) (src : Str),
      (q = '\'' ∨ q = '"') → goodKeyB key = true → (∀ c ∈ r0, ¬(c = '#')) →
      neverClosesB q r0 lines = true →
      ∃ t, readINITree ((key ++ ' ' :: '=' :: ' ' :: q :: r0) :: lines) emptyTree src ow =
          Except.ok t ∧ lookupV t key = some (r0 ++ nlJoin lines) := by
  intro q key r0 lines ow src hq hgk hr0 hnc
  have hstep := lineStep_quote_eof q key r0 lines hq hgk hr0 hnc
  rcases setValueSeg_bare (splitDot key) [] [] [] (r0 ++ nlJoin lines)
    (splitDot_ne_nil key) with ⟨t', ht'⟩
  have hsv : setValue emptyTree key (r0 ++ nlJoin lines) = Except.ok t' := ht'
  refine ⟨t', ?_, ?_⟩
  · rw [readINITree,
      show ((key ++ ' ' :: '=' :: ' ' :: q :: r0) :: lines).length + 1 =
        lines.length + 1 + 1 from by simp]
    simp only [readINIAux, hstep]
    rw [if_neg (by simp)]
    rw [storeStep_emptyTree, hsv]
  · exact setValueSeg_lookup_self (splitDot key) _ t' _ (splitDot_ne_nil key) ht'

/-- C10, witness: claim10_theorem at a concrete single-quoted value left
unclosed over a second line. -/
theorem claim10_witness :
    ∃ t, readINITree ((str "k" ++ ' ' :: '=' :: ' ' :: '\'' :: str "abc") :: [str "def"])
        emptyTree (str "s") true = Except.ok t ∧
      lookupV t (str "k") = some (str "abc" ++ nlJoin [str "def"]) :=
  claim10_theorem '\'' (str "k") (str "abc") [str "def"] true (str "s") (Or.inl rfl)
    (by decide) (by decide) (by decide)

/-! C2: ConfigTree::report and the round trip back through readINITree. -/

/-- One value line of ConfigTree::report: key = "value". -/
def vLine (k v : Str) : Str := k ++ ' ' :: '=' :: ' ' :: '"' :: (v ++ ['"'])

/-- The section header report prints before a subtree's block:
[ fullpath ]. -/
def hLine (p : Str) : Str := '[' :: ' ' :: (p ++ [' ', ']'])

/-- The blocks report prints for a node's subtrees, given the printer
for one subtree: each child's header (the report prefix argument, the
node's prefix member and the child's name) followed by its block. -/
def reportSubsF (f : ConfigTree → List Str) (pre pfx0 : Str) :
    List (Str × ConfigTree) → List Str
  | [] => []
  | (name, c) :: rest => hLine (pre ++ pfx0 ++ name) :: (f c ++ reportSubsF f pre pfx0 rest)

/-- ConfigTree::report as the list of lines it prints: the node's values
in map order, then each subtree's header and block.  The fuel bounds the
recursion depth. -/
def reportF : Nat → Str → ConfigTree → List Str
  | 0, _, _ => []
  | n + 1, pre, t =>
    t.values.map (fun kv => vLine kv.1 kv.2) ++ reportSubsF (reportF n pre) pre t.pfx t.subs

/-- The (full key, value) pairs the subtree blocks contribute, given the
entry list of one subtree. -/
def entriesSubsF (f : Str → ConfigTree → List (Str × Str)) :
    List (Str × ConfigTree) → List (Str × Str)
  | [] => []
  | (name, c) :: rest => f name c ++ entriesSubsF f rest

/-- The fully qualified (key, value) pairs of a tree below a given
dotted prefix, in report (depth-first, map) order. -/
def entriesF : Nat → Str → ConfigTree → List (Str × Str)
  | 0, _, _ => []
  | n + 1, p, t =>
    t.values.map (fun kv => (p ++ kv.1, kv.2)) ++
      entriesSubsF (fun name c => entriesF n (p ++ name ++ ['.']) c) t.subs

/-- The head strictly precedes every element of the list in the map
order. -/
def allLt (k : Str) : List Str → Bool
  | [] => true
  | a :: rest => ltStr k a && allLt k rest

/-- The list is strictly increasing: every element precedes every later
one, as the key sequence of a std::map is. -/
def pairLtB : List Str → Bool
  | [] => true
  | a :: rest => allLt a rest && pairLtB rest

/-- A name safe for the INI format: nonempty and free of whitespace,
comment, assignment, dot and bracket characters. -/
def goodNameB (k : Str) : Bool :=
  !k.isEmpty && k.all (fun c =>
    !isWs c && !(c = '#') && !(c = '=') && !(c = '.') && !(c = '[') && !(c = ']'))

/-- A value the quoted report line keeps intact through a reparse: no
comment character and no line break. -/
def goodValB (v : Str) : Bool := v.all (fun c => !(c = '#') && !(c = '\n'))

/-- The tree holds at least one value somewhere; the parse can only
create a subtree by storing a value inside it. -/
def hasValueN : Nat → ConfigTree → Bool
  | 0, _ => false
  | n + 1, t => !t.values.isEmpty || t.subs.any (fun nc => hasValueN n nc.2)

/-- Well-formedness under which the report output reparses exactly: the
prefix member is the canonical absolute dotted path, the two key vectors
mirror the maps, the maps are sorted, names and values use safe
characters, no subtree name collides with a value key, and every subtree
holds a value. -/
def WFtreeB : Nat → Str → ConfigTree → Bool
  | 0, _, _ => false
  | n + 1, pE, t =>
    decide (t.pfx = pE) &&
    decide (t.valueKeys = t.values.map Prod.fst) &&
    decide (t.subKeys = t.subs.map Prod.fst) &&
    pairLtB (t.values.map Prod.fst) &&
    pairLtB (t.subs.map Prod.fst) &&
    t.values.all (fun kv => goodNameB kv.1 && goodValB kv.2) &&
    t.subs.all (fun nc =>
      goodNameB nc.1 && !containsM t.values nc.1 && hasValueN n nc.2 &&
        WFtreeB n (pE ++ nc.1 ++ ['.']) nc.2)

/-- The parse loop completes on the given lines: enough fuel and no
failing quote line. -/
def goodRun : Nat → List Str → Str → Bool
  | 0, _, _ => false
  | _ + 1, [], _ => true
  | f + 1, line :: rest, pre =>
    match lineStep pre line rest with
    | LineAction.skip pre2 => goodRun f rest pre2
    | LineAction.fail _ => false
    | LineAction.store _ _ rest2 => goodRun f rest2 pre

/-- Folding stores through the mutable accessor, one (key, value) pair
at a time, as a successful overwrite-mode parse does. -/
def foldStores : ConfigTree → List (Str × Str) → Except Err ConfigTree
  | pt, [] => Except.ok pt
  | pt, kv :: rest =>
    match setValue pt kv.1 kv.2 with
    | Except.error e => Except.error e
    | Except.ok pt2 => foldStores pt2 rest

theorem goodNameB_spec : ∀ {k : Str}, goodNameB k = true →
    k ≠ [] ∧ ∀ c ∈ k, isWs c = false ∧ ¬(c = '#') ∧ ¬(c = '=') ∧ ¬(c = '.') ∧
      ¬(c = '[') ∧ ¬(c = ']') := by
  intro k h
  rw [goodNameB, Bool.and_eq_true, List.all_eq_true] at h
  rcases h with ⟨hne, hall⟩
  constructor
  · intro he
    subst he
    simp at hne
  · intro c hc
    have h6 := hall c hc
    simp only [Bool.and_eq_true, Bool.not_eq_true', decide_eq_false_iff_not] at h6
    obtain ⟨⟨⟨⟨⟨h1, h2⟩, h3⟩, h4⟩, h5⟩, h6⟩ := h6
    exact ⟨h1, h2, h3, h4, h5, h6⟩

theorem goodValB_spec : ∀ {v : Str}, goodValB v = true →
    ∀ c ∈ v, ¬(c = '#') ∧ ¬(c = '\n') := by
  intro v h c hc
  rw [goodValB, List.all_eq_true] at h
  have h2 := h c hc
  simp only [Bool.and_eq_true, Bool.not_eq_true', decide_eq_false_iff_not] at h2
  exact h2


/-- A report value line parses to one store action for the current
prefix with the exact value and no extra line consumed: the closing
quote is the line's last non-whitespace character, so the quote loop
ends at once. -/
theorem lineStep_vline :
    ∀ (pre2 k v : Str) (rest : List Str), goodNameB k = true → goodValB v = true →
      lineStep pre2 (vLine k v) rest = LineAction.store (pre2 ++ k) v rest := by
  intro pre2 k v rest hgk hgv
  rcases goodNameB_spec hgk with ⟨hne, hall⟩
  have hgvs := goodValB_spec hgv
  cases k with
  | nil => exact absurd rfl hne
  | cons kc ktail =>
    have hkc := hall kc (List.mem_cons_self kc ktail)
    have hltrim : ltrim (vLine (kc :: ktail) v) =
        kc :: (ktail ++ ' ' :: '=' :: ' ' :: '"' :: (v ++ ['"'])) := by
      rw [vLine, List.cons_append]
      exact ltrim_cons_nonws hkc.1 _
    have hhash : ∀ c ∈ kc :: (ktail ++ ' ' :: '=' :: ' ' :: '"' :: (v ++ ['"'])),
        ¬(c = '#') := by
      intro c hc hcontra
      subst hcontra
      rcases List.mem_cons.mp hc with hc | hc
      · exact (hall kc (List.mem_cons_self kc ktail)).2.1 hc.symm
      · rcases List.mem_append.mp hc with hc | hc
        · exact (hall '#' (List.mem_cons_of_mem kc hc)).2.1 rfl
        · rcases List.mem_cons.mp hc with hc | hc
          · exact absurd hc (by decide)
          · rcases List.mem_cons.mp hc with hc | hc
            · exact absurd hc (by decide)
            · rcases List.mem_cons.mp hc with hc | hc
              · exact absurd hc (by decide)
              · rcases List.mem_cons.mp hc with hc | hc
                · exact absurd hc (by decide)
                · rcases List.mem_append.mp hc with hc | hc
                  · exact (hgvs '#' hc).1 rfl
                  · rcases List.mem_cons.mp hc with hc | hc
                    · exact absurd hc (by decide)
                    · simp at hc
    have hform : kc :: (ktail ++ ' ' :: '=' :: ' ' :: '"' :: (v ++ ['"'])) =
        ((kc :: ktail) ++ [' ']) ++ '=' :: (' ' :: '"' :: (v ++ ['"'])) := by
      simp
    have hnoeq : ∀ c ∈ (kc :: ktail) ++ [' '], ¬(c = '=') := by
      intro c hc
      rcases List.mem_append.mp hc with hc | hc
      · exact (hall c hc).2.2.1
      · intro hcontra
        subst hcontra
        simp at hc
    have hfe : findEq (kc :: (ktail ++ ' ' :: '=' :: ' ' :: '"' :: (v ++ ['"']))) =
        some ((kc :: ktail) ++ [' '], ' ' :: '"' :: (v ++ ['"'])) := by
      rw [hform]
      exact findEq_append _ hnoeq
    have hkltr : rtrim (ltrim ((kc :: ktail) ++ [' '])) = kc :: ktail := by
      rw [show (kc :: ktail) ++ [' '] = kc :: (ktail ++ [' ']) from rfl,
        ltrim_cons_nonws hkc.1,
        show kc :: (ktail ++ [' ']) = (kc :: ktail) ++ [' '] from rfl]
      exact rtrim_append_ws (fun c hc => (hall c hc).1)
    have hrawv : ltrim (' ' :: '"' :: (v ++ ['"'])) = '"' :: (v ++ ['"']) := by
      rw [ltrim_cons_ws (by decide)]
      exact ltrim_cons_nonws (by decide) _
    have hqj : quoteJoin '"' (v ++ ['"']) rest = Except.ok (v ++ ['"'], rest) := by
      cases rest with
      | nil =>
        simp only [quoteJoin]
        rw [rtrim_concat_nonws (by decide)]
        rw [if_neg (by cases v <;> simp [List.isEmpty])]
        rw [if_pos (by rw [List.getLast?_concat])]
      | cons a as =>
        simp only [quoteJoin]
        rw [rtrim_concat_nonws (by decide)]
        rw [if_neg (by cases v <;> simp [List.isEmpty])]
        rw [if_pos (by rw [List.getLast?_concat])]
    simp only [lineStep, hltrim, hkc.2.1, hkc.2.2.2.2.1, if_false,
      takeBeforeHash_all hhash, hfe, hkltr, hrawv]
    rw [if_pos (by decide)]
    rw [hqj]
    simp only []
    rw [rtrim_concat_nonws (by decide), List.dropLast_concat]

/-- A report header line parses to a skip action that sets the section
prefix to the printed path followed by a dot. -/
theorem lineStep_hline :
    ∀ (pre2 p : Str) (rest : List Str), p ≠ [] → (∀ c ∈ p, isWs c = false) →
      lineStep pre2 (hLine p) rest = LineAction.skip (p ++ ['.']) := by
  intro pre2 p rest hne hws
  have hltrim : ltrim (hLine p) = '[' :: (' ' :: (p ++ [' ', ']'])) := by
    rw [hLine]
    exact ltrim_cons_nonws (by decide) _
  have hrt : rtrim ('[' :: (' ' :: (p ++ [' ', ']']))) =
      '[' :: (' ' :: (p ++ [' ', ']'])) := by
    rw [show '[' :: (' ' :: (p ++ [' ', ']'])) = ('[' :: ' ' :: (p ++ [' '])) ++ [']']
      from by simp]
    exact rtrim_concat_nonws (by decide)
  have hl2ne : ¬(rtrim ('[' :: (' ' :: (p ++ [' ', ']']))) = []) := by
    rw [hrt]
    simp
  have hgl : ∀ (h : ¬(rtrim ('[' :: (' ' :: (p ++ [' ', ']']))) = [])),
      (rtrim ('[' :: (' ' :: (p ++ [' ', ']'])))).getLast h = ']' := by
    intro h
    have h2 : (rtrim ('[' :: (' ' :: (p ++ [' ', ']'])))).getLast? = some ']' := by
      rw [hrt, show '[' :: (' ' :: (p ++ [' ', ']'])) =
        ('[' :: ' ' :: (p ++ [' '])) ++ [']'] from by simp]
      rw [List.getLast?_concat]
    have h3 := List.getLast?_eq_getLast _ h
    rw [h2] at h3
    exact (Option.some.inj h3).symm
  simp only [lineStep, hltrim]
  rw [if_neg (by decide), if_pos trivial]
  rw [dif_neg hl2ne]
  rw [hgl, if_pos (show (']' : Char) = ']' from rfl)]
  rw [hrt]
  rw [show ('[' :: (' ' :: (p ++ [' ', ']']))).drop 1 = ' ' :: (p ++ [' ', ']']) from rfl]
  rw [show (' ' :: (p ++ [' ', ']'])).dropLast = ' ' :: (p ++ [' ']) from by
    rw [show ' ' :: (p ++ [' ', ']']) = (' ' :: (p ++ [' '])) ++ [']'] from by simp]
    rw [List.dropLast_concat]]
  rw [ltrim_cons_ws (by decide)]
  have hpl : ltrim (p ++ [' ']) = p ++ [' '] := by
    cases p with
    | nil => exact absurd rfl hne
    | cons pc pt =>
      rw [List.cons_append]
      exact ltrim_cons_nonws (hws pc (List.mem_cons_self pc pt)) _
  rw [hpl, rtrim_append_ws hws, if_neg hne]

/-- Unpacking the conjuncts of the well-formedness predicate at positive
fuel. -/
theorem WFtreeB_parts : ∀ {n : Nat} {pE : Str} {t : ConfigTree},
    WFtreeB (n + 1) pE t = true →
    t.pfx = pE ∧ t.valueKeys = t.values.map Prod.fst ∧ t.subKeys = t.subs.map Prod.fst ∧
    pairLtB (t.values.map Prod.fst) = true ∧ pairLtB (t.subs.map Prod.fst) = true ∧
    (∀ kv ∈ t.values, goodNameB kv.1 = true ∧ goodValB kv.2 = true) ∧
    (∀ nc ∈ t.subs, goodNameB nc.1 = true ∧ containsM t.values nc.1 = false ∧
      hasValueN n nc.2 = true ∧ WFtreeB n (pE ++ nc.1 ++ ['.']) nc.2 = true) := by
  intro n pE t h
  rw [WFtreeB] at h
  simp only [Bool.and_eq_true, decide_eq_true_eq, List.all_eq_true,
    Bool.not_eq_true'] at h
  obtain ⟨⟨⟨⟨⟨⟨h1, h2⟩, h3⟩, h4⟩, h5⟩, h6⟩, h7⟩ := h
  refine ⟨h1, h2, h3, h4, h5, h6, ?_⟩
  intro nc hnc
  obtain ⟨⟨⟨g1, g2⟩, g3⟩, g4⟩ := h7 nc hnc
  exact ⟨g1, g2, g3, g4⟩

/-- Tracing a run of report value lines: each line stores its pair under
the current prefix and the prefix does not change. -/
theorem traceVals :
    ∀ (vs : List (Str × Str)) (pre2 : Str) (more : List Str) (f : Nat),
      (∀ kv ∈ vs, goodNameB kv.1 = true ∧ goodValB kv.2 = true) →
      valTrace (vs.length + f) (vs.map (fun kv => vLine kv.1 kv.2) ++ more) pre2 =
          vs.map (fun kv => (pre2 ++ kv.1, kv.2)) ++ valTrace f more pre2 ∧
        goodRun (vs.length + f) (vs.map (fun kv => vLine kv.1 kv.2) ++ more) pre2 =
          goodRun f more pre2 := by
  intro vs
  induction vs with
  | nil =>
    intro pre2 more f hgood
    constructor
    · simp
    · simp
  | cons kv vs2 ih =>
    intro pre2 more f hgood
    have hstep := lineStep_vline pre2 kv.1 kv.2 (vs2.map (fun kv => vLine kv.1 kv.2) ++ more)
      (hgood kv (List.mem_cons_self kv vs2)).1 (hgood kv (List.mem_cons_self kv vs2)).2
    have harith : (kv :: vs2).length + f = (vs2.length + f) + 1 := by
      simp only [List.length_cons]
      omega
    rw [harith]
    rw [show (kv :: vs2).map (fun kv => vLine kv.1 kv.2) ++ more =
      vLine kv.1 kv.2 :: (vs2.map (fun kv => vLine kv.1 kv.2) ++ more) from by simp]
    have ih2 := ih pre2 more f (fun x hx => hgood x (List.mem_cons_of_mem kv hx))
    constructor
    · simp only [valTrace, hstep]
      rw [ih2.1]
      simp
    · simp only [goodRun, hstep]
      exact ih2.2

/-- Tracing a run of subtree blocks: each begins with its header, which
resets the prefix to the child's canonical prefix, and contributes the
child's entries; the first argument is the induction hypothesis on the
fuel for one whole tree. -/
theorem traceSubs :
    ∀ (n : Nat),
      (∀ (t : ConfigTree) (pE : Str), WFtreeB n pE t = true →
        (∀ c ∈ pE, isWs c = false) → ∀ (more : List Str) (f : Nat),
        ∃ pre3, valTrace ((reportF n [] t).length + f) (reportF n [] t ++ more) pE =
            entriesF n pE t ++ valTrace f more pre3 ∧
          goodRun ((reportF n [] t).length + f) (reportF n [] t ++ more) pE =
            goodRun f more pre3) →
      ∀ (ss : List (Str × ConfigTree)) (pE : Str),
        (∀ c ∈ pE, isWs c = false) →
        (∀ nc ∈ ss, goodNameB nc.1 = true ∧ WFtreeB n (pE ++ nc.1 ++ ['.']) nc.2 = true) →
        ∀ (pre2 : Str) (more : List Str) (f : Nat),
        ∃ pre3,
          valTrace ((reportSubsF (reportF n []) [] pE ss).length + f)
              (reportSubsF (reportF n []) [] pE ss ++ more) pre2 =
            entriesSubsF (fun name c => entriesF n (pE ++ name ++ ['.']) c) ss ++
              valTrace f more pre3 ∧
          goodRun ((reportSubsF (reportF n []) [] pE ss).length + f)
              (reportSubsF (reportF n []) [] pE ss ++ more) pre2 =
            goodRun f more pre3 := by
  intro n hIH ss
  induction ss with
  | nil =>
    intro pE hpe hcond pre2 more f
    refine ⟨pre2, ?_, ?_⟩
    · simp [reportSubsF, entriesSubsF]
    · simp [reportSubsF]
  | cons nc ss2 ih =>
    intro pE hpe hcond pre2 more f
    obtain ⟨name, c⟩ := nc
    have hgname : goodNameB name = true := by
      simpa using (hcond (name, c) (List.mem_cons_self _ _)).1
    have hWFc : WFtreeB n (pE ++ (name ++ ['.'])) c = true := by
      simpa [List.append_assoc] using (hcond (name, c) (List.mem_cons_self _ _)).2
    rcases goodNameB_spec hgname with ⟨hnne, hnall⟩
    have hcond2 : ∀ nc ∈ ss2, goodNameB nc.1 = true ∧
        WFtreeB n (pE ++ nc.1 ++ ['.']) nc.2 = true :=
      fun nc hnc => hcond nc (List.mem_cons_of_mem _ hnc)
    have hpn : pE ++ name ≠ [] := by
      intro h
      exact hnne (List.append_eq_nil.mp h).2
    have hpnws : ∀ ch ∈ pE ++ name, isWs ch = false := by
      intro ch hch
      rcases List.mem_append.mp hch with hch | hch
      · exact hpe ch hch
      · exact (hnall ch hch).1
    have hpdws : ∀ ch ∈ pE ++ (name ++ ['.']), isWs ch = false := by
      intro ch hch
      rcases List.mem_append.mp hch with hch | hch
      · exact hpe ch hch
      · rcases List.mem_append.mp hch with hch | hch
        · exact (hnall ch hch).1
        · rcases List.mem_cons.mp hch with hch | hch
          · subst hch
            decide
          · simp at hch
    have hstep := lineStep_hline pre2 (pE ++ name)
      ((reportF n [] c ++ reportSubsF (reportF n []) [] pE ss2) ++ more) hpn hpnws
    obtain ⟨pre4, hv1, hg1⟩ := hIH c (pE ++ (name ++ ['.'])) hWFc hpdws
      (reportSubsF (reportF n []) [] pE ss2 ++ more)
      ((reportSubsF (reportF n []) [] pE ss2).length + f)
    obtain ⟨pre5, hv2, hg2⟩ := ih pE hpe hcond2 pre4 more f
    have hfl : (hLine (pE ++ name) ::
          (reportF n [] c ++ reportSubsF (reportF n []) [] pE ss2)).length + f =
        ((reportF n [] c).length +
          ((reportSubsF (reportF n []) [] pE ss2).length + f)) + 1 := by
      simp only [List.length_cons, List.length_append]
      omega
    refine ⟨pre5, ?_, ?_⟩
    · simp only [reportSubsF, entriesSubsF, List.nil_append]
      rw [hfl, List.cons_append]
      simp only [valTrace, hstep]
      rw [List.append_assoc pE name ['.']]
      rw [List.append_assoc (reportF n [] c)]
      rw [hv1, hv2]
      simp [List.append_assoc]
    · simp only [reportSubsF, List.nil_append]
      rw [hfl, List.cons_append]
      simp only [goodRun, hstep]
      rw [List.append_assoc pE name ['.']]
      rw [List.append_assoc (reportF n [] c)]
      rw [hg1, hg2]

/-- Tracing a whole report block under the node's canonical prefix: the
stored pairs are exactly the tree's qualified entries, the parse always
completes, and afterwards the remaining lines run from some prefix. -/
theorem traceRun :
    ∀ (n : Nat) (t : ConfigTree) (pE : Str), WFtreeB n pE t = true →
      (∀ c ∈ pE, isWs c = false) → ∀ (more : List Str) (f : Nat),
      ∃ pre3, valTrace ((reportF n [] t).length + f) (reportF n [] t ++ more) pE =
          entriesF n pE t ++ valTrace f more pre3 ∧
        goodRun ((reportF n [] t).length + f) (reportF n [] t ++ more) pE =
          goodRun f more pre3 := by
  intro n
  induction n with
  | zero =>
    intro t pE hwf
    rw [WFtreeB] at hwf
    exact absurd hwf (by simp)
  | succ m ih =>
    intro t pE hwf hpe more f
    obtain ⟨hpfx, hvk, hsk, hpv, hps, hvals, hsubs⟩ := WFtreeB_parts hwf
    have hcond : ∀ nc ∈ t.subs, goodNameB nc.1 = true ∧
        WFtreeB m (pE ++ nc.1 ++ ['.']) nc.2 = true :=
      fun nc hnc => ⟨(hsubs nc hnc).1, (hsubs nc hnc).2.2.2⟩
    obtain ⟨pre3, hv2, hg2⟩ := traceSubs m ih t.subs pE hpe hcond pE more f
    have hv1 := (traceVals t.values pE
      (reportSubsF (reportF m []) [] pE t.subs ++ more)
      ((reportSubsF (reportF m []) [] pE t.subs).length + f) hvals).1
    have hg1 := (traceVals t.values pE
      (reportSubsF (reportF m []) [] pE t.subs ++ more)
      ((reportSubsF (reportF m []) [] pE t.subs).length + f) hvals).2
    have hfl : (t.values.map (fun kv => vLine kv.1 kv.2) ++
          reportSubsF (reportF m []) [] pE t.subs).length + f =
        t.values.length + ((reportSubsF (reportF m []) [] pE t.subs).length + f) := by
      simp only [List.length_append, List.length_map]
      omega
    refine ⟨pre3, ?_, ?_⟩
    · simp only [reportF, entriesF, hpfx]
      rw [hfl, List.append_assoc]
      rw [hv1, hv2]
      simp [List.append_assoc]
    · simp only [reportF, hpfx]
      rw [hfl, List.append_assoc]
      rw [hg1, hg2]

/-- With overwrite enabled the store branch is exactly the mutable
accessor. -/
theorem storeStep_true : ∀ (pt : ConfigTree) (k v : Str),
    storeStep true pt k v = setValue pt k v := fun _ _ _ => rfl

/-- Bridging a completed trace to the parser loop itself: when the trace
covers the input, its keys avoid the seen set and repeat nowhere, and
folding the stores succeeds, the overwrite-mode loop returns exactly the
fold's result. -/
theorem readINIAux_fold :
    ∀ (fuel : Nat) (lines : List Str) (pre : Str) (seen : List Str)
      (pt pt2 : ConfigTree) (src : Str),
      goodRun fuel lines pre = true →
      (∀ k ∈ keyTrace fuel lines pre, ¬ k ∈ seen) →
      (keyTrace fuel lines pre).Nodup →
      foldStores pt (valTrace fuel lines pre) = Except.ok pt2 →
      readINIAux true src fuel lines pre seen pt = Except.ok pt2 := by
  intro fuel
  induction fuel with
  | zero =>
    intro lines pre seen pt pt2 src hgr
    exact absurd hgr (by simp [goodRun])
  | succ f ih =>
    intro lines pre seen pt pt2 src hgr hdisj hnd hfold
    cases lines with
    | nil =>
      simp only [valTrace, foldStores] at hfold
      simp only [readINIAux]
      exact hfold
    | cons line rest =>
      rcases hstep : lineStep pre line rest with pre2 | ⟨key, value, rest2⟩ | e
      · simp only [goodRun, hstep] at hgr
        simp only [keyTrace, valTrace, hstep] at hdisj hnd hfold
        simp only [readINIAux, hstep]
        exact ih rest pre2 seen pt pt2 src hgr hdisj hnd hfold
      · simp only [goodRun, hstep] at hgr
        simp only [keyTrace, valTrace, hstep, List.map_cons] at hdisj hnd hfold
        have hkseen : ¬ key ∈ seen := hdisj key (List.mem_cons_self _ _)
        rw [List.nodup_cons] at hnd
        simp only [readINIAux, hstep]
        rw [if_neg hkseen, storeStep_true]
        rcases hsv : setValue pt key value with e | pt1
        · rw [foldStores, hsv] at hfold
          simp only [] at hfold
          exact absurd hfold (by simp)
        · rw [foldStores, hsv] at hfold
          simp only [] at hfold
          simp only []
          refine ih rest2 pre (key :: seen) pt1 pt2 src hgr ?_ hnd.2 hfold
          intro k hk
          intro hks
          rcases List.mem_cons.mp hks with hks | hks
          · subst hks
            exact hnd.1 hk
          · exact hdisj k (List.mem_cons_of_mem _ hk) hks
      · simp only [goodRun, hstep] at hgr
        exact absurd hgr (by simp)

/-! Order facts about the sorted maps, and grafting stores into a
subtree. -/

theorem allLt_mem : ∀ {k : Str} {l : List Str}, allLt k l = true →
    ∀ a ∈ l, ltStr k a = true := by
  intro k l
  induction l with
  | nil =>
    intro _ a ha
    simp at ha
  | cons b rest ih =>
    intro h a ha
    rw [allLt, Bool.and_eq_true] at h
    rcases List.mem_cons.mp ha with ha | ha
    · subst ha
      exact h.1
    · exact ih h.2 a ha

theorem ltStr_asymm : ∀ (a b : Str), ltStr a b = true → ltStr b a = false := by
  intro a
  induction a with
  | nil =>
    intro b h
    cases b with
    | nil => rfl
    | cons c cs => rfl
  | cons x xs ih =>
    intro b h
    cases b with
    | nil => exact absurd h (by simp [ltStr])
    | cons y ys =>
      rw [Bool.eq_false_iff]
      intro h2
      simp only [ltStr, Bool.or_eq_true, Bool.and_eq_true, decide_eq_true_eq] at h h2
      rcases h with h | ⟨he, hlt⟩ <;> rcases h2 with h2 | ⟨he2, hlt2⟩
      · exact absurd h2 (lt_asymm h)
      · rw [he2] at h
        exact absurd h (lt_irrefl x)
      · rw [he] at h2
        exact absurd h2 (lt_irrefl y)
      · rw [ih ys hlt] at hlt2
        exact absurd hlt2 (by simp)

theorem pairLt_split : ∀ (xs : List Str) (k : Str) (ys : List Str),
    pairLtB (xs ++ k :: ys) = true → ∀ x ∈ xs, ltStr x k = true := by
  intro xs
  induction xs with
  | nil =>
    intro k ys _ x hx
    simp at hx
  | cons a xs2 ih =>
    intro k ys h x hx
    rw [List.cons_append, pairLtB, Bool.and_eq_true] at h
    rcases List.mem_cons.mp hx with hx | hx
    · subst hx
      exact allLt_mem h.1 k (by simp)
    · exact ih k ys h.2 x hx

theorem pairLt_tail : ∀ (a : Str) (l : List Str), pairLtB (a :: l) = true →
    pairLtB l = true := by
  intro a l h
  rw [pairLtB, Bool.and_eq_true] at h
  exact h.2

theorem pairLt_nodup : ∀ (l : List Str), pairLtB l = true → l.Nodup := by
  intro l
  induction l with
  | nil => intro _; exact List.nodup_nil
  | cons a rest ih =>
    intro h
    rw [pairLtB, Bool.and_eq_true] at h
    rw [List.nodup_cons]
    refine ⟨?_, ih h.2⟩
    intro hmem
    have := allLt_mem h.1 a hmem
    rw [ltStr_irrefl] at this
    exact absurd this (by simp)

theorem containsM_lt {α : Type} : ∀ (m : List (Str × α)) (k : Str),
    (∀ kv ∈ m, ltStr kv.1 k = true) → containsM m k = false := by
  intro m k h
  rcases hlv : lookupM m k with _ | v
  · rw [containsM, hlv]
    rfl
  · have hmem := lookupM_mem hlv
    have := h (k, v) hmem
    rw [ltStr_irrefl] at this
    exact absurd this (by simp)

theorem containsM_insertM_self {α : Type} : ∀ (m : List (Str × α)) (k : Str) (v : α),
    containsM (insertM k v m) k = true := by
  intro m k v
  rw [containsM, lookupM_insertM_self]
  rfl

theorem lookupM_none_of_lt {α : Type} : ∀ (m : List (Str × α)) (k : Str),
    (∀ kv ∈ m, ltStr kv.1 k = true) → lookupM m k = none := by
  intro m k h
  rcases hlv : lookupM m k with _ | v
  · rfl
  · have := h (k, v) (lookupM_mem hlv)
    rw [ltStr_irrefl] at this
    exact absurd this (by simp)

theorem insertM_allLt {α : Type} : ∀ (m : List (Str × α)) (k : Str) (v : α),
    (∀ kv ∈ m, ltStr kv.1 k = true) → insertM k v m = m ++ [(k, v)] := by
  intro m
  induction m with
  | nil =>
    intro k v _
    rfl
  | cons kv1 m2 ih =>
    intro k v h
    have h1 := h kv1 (List.mem_cons_self _ _)
    rw [insertM]
    rw [if_neg (by rw [ltStr_asymm kv1.1 k h1]; simp)]
    rw [if_neg (fun he => by rw [← he] at h1; rw [ltStr_irrefl] at h1; simp at h1)]
    rw [ih k v (fun x hx => h x (List.mem_cons_of_mem _ hx))]
    rfl

theorem setPfx_pfx : ∀ (t : ConfigTree) (p : Str), (setPfx t p).pfx = p := by
  intro t p
  cases t
  rfl

theorem setPfx_self : ∀ (t : ConfigTree), setPfx t t.pfx = t := by
  intro t
  cases t
  rfl

theorem replaceSub_pfx : ∀ (t : ConfigTree) (k : Str) (c : ConfigTree),
    (replaceSub t k c).pfx = t.pfx := by
  intro t k c
  cases t
  rfl

theorem subMut1_pfx : ∀ {t t1 : ConfigTree} {k : Str},
    subMut1 t k = Except.ok t1 → t1.pfx = t.pfx := by
  intro t t1 k h
  cases t with
  | node p vk sk vs ss =>
    rw [subMut1] at h
    by_cases hc : containsM (ConfigTree.node p vk sk vs ss).values k = true
    · rw [if_pos hc] at h
      exact absurd h (by simp)
    · rw [if_neg hc] at h
      simp only [] at h
      rw [← Except.ok.inj h]
      rfl

theorem setValueSeg_pfx : ∀ (segs : List Str) (t t2 : ConfigTree) (v : Str),
    setValueSeg t segs v = Except.ok t2 → t2.pfx = t.pfx := by
  intro segs
  cases segs with
  | nil =>
    intro t t2 v h
    rw [← Except.ok.inj h]
  | cons k rest =>
    cases rest with
    | nil =>
      intro t t2 v h
      rcases hk : hasKeySeg t [k] with e | b
      · rw [setValueSeg_leaf, hk, exbind_err] at h
        exact absurd h (by simp)
      · rw [setValueSeg_leaf, hk, exbind_ok] at h
        cases t with
        | node p vk sk vs ss =>
          simp only [] at h
          rw [← Except.ok.inj h]
          rfl
    | cons k2 r =>
      intro t t2 v h
      rcases hm : subMut1 t k with e | t1
      · rw [setValueSeg_cons, hm, exbind_err] at h
        exact absurd h (by simp)
      · rw [setValueSeg_cons, hm, exbind_ok] at h
        rcases hl : lookupM t1.subs k with _ | c
        · rw [hl] at h
          simp only [] at h
          exact absurd h (by simp)
        · rw [hl] at h
          simp only [] at h
          rcases hs : setValueSeg c (k2 :: r) v with e | c2
          · rw [hs, exbind_err] at h
            exact absurd h (by simp)
          · rw [hs, exbind_ok] at h
            rw [← Except.ok.inj h, replaceSub_pfx]
            exact subMut1_pfx hm

theorem splitDot_prepend : ∀ (a r : Str), ('.' ∈ a → False) →
    splitDot (a ++ '.' :: r) = a :: splitDot r := by
  intro a
  induction a with
  | nil =>
    intro r _
    rw [List.nil_append, splitDot, if_pos rfl]
  | cons c a2 ih =>
    intro r h
    have hc : ¬(c = '.') := fun he => h (he ▸ List.mem_cons_self c a2)
    rw [List.cons_append, splitDot, if_neg hc, ih r (fun hm => h (List.mem_cons_of_mem c hm))]

/-- One store through a dotted key: the value descends into the named
child (default-constructed when missing, its prefix set), and the node is
rebuilt around the updated child. -/
theorem graft1 :
    ∀ (p : Str) (vk sk : List Str) (vs : List (Str × Str)) (ss : List (Str × ConfigTree))
      (name krel v : Str), containsM vs name = false → ('.' ∈ name → False) →
      setValue (ConfigTree.node p vk sk vs ss) (name ++ '.' :: krel) v =
        (match setValueSeg (setPfx ((lookupM ss name).getD emptyTree) (p ++ name ++ ['.']))
            (splitDot krel) v with
        | Except.error e => Except.error e
        | Except.ok c2 => Except.ok (ConfigTree.node p vk
            (if containsM ss name then sk else sk ++ [name]) vs (insertM name c2 ss))) := by
  intro p vk sk vs ss name krel v hcv hdot
  rw [setValue, splitDot_prepend name krel hdot]
  rcases hsd : splitDot krel with _ | ⟨k2, r⟩
  · exact absurd hsd (splitDot_ne_nil krel)
  · rw [setValueSeg_cons]
    have hsm : subMut1 (ConfigTree.node p vk sk vs ss) name =
        Except.ok (ConfigTree.node p vk (if containsM ss name then sk else sk ++ [name]) vs
          (insertM name (setPfx ((lookupM ss name).getD emptyTree) (p ++ name ++ ['.']))
            ss)) := by
      rw [subMut1]
      rw [if_neg (by simp [ConfigTree.values, hcv])]
    rw [hsm, exbind_ok]
    rw [show (ConfigTree.node p vk (if containsM ss name then sk else sk ++ [name]) vs
        (insertM name (setPfx ((lookupM ss name).getD emptyTree) (p ++ name ++ ['.']))
          ss)).subs =
      insertM name (setPfx ((lookupM ss name).getD emptyTree) (p ++ name ++ ['.'])) ss
      from rfl]
    rw [lookupM_insertM_self]
    simp only []
    rcases hsv2 : setValueSeg
        (setPfx ((lookupM ss name).getD emptyTree) (p ++ name ++ ['.'])) (k2 :: r) v
      with e | c2
    · rw [exbind_err]
    · rw [exbind_ok]
      simp only [replaceSub]
      rw [insertM_insertM_self]

theorem foldStores_append : ∀ (a b : List (Str × Str)) (pt pt1 : ConfigTree),
    foldStores pt a = Except.ok pt1 →
    foldStores pt (a ++ b) = foldStores pt1 b := by
  intro a
  induction a with
  | nil =>
    intro b pt pt1 h
    rw [foldStores] at h
    rw [List.nil_append, Except.ok.inj h]
  | cons kv rest ih =>
    intro b pt pt1 h
    rw [foldStores] at h
    rw [List.cons_append, foldStores]
    rcases hsv : setValue pt kv.1 kv.2 with e | pt2
    · rw [hsv] at h
      simp only [] at h
      exact absurd h (by simp)
    · rw [hsv] at h
      simp only [] at h
      simp only []
      exact ih b pt2 pt1 h

/-- Grafting a nonempty block of stores under one child name: the child
is created (or found), receives its canonical prefix, absorbs all the
relative stores, and the rebuilt node records the child once. -/
theorem graftRun :
    ∀ (entries : List (Str × Str)) (p : Str) (vk sk : List Str) (vs : List (Str × Str))
      (ss : List (Str × ConfigTree)) (name : Str) (c2 : ConfigTree),
      entries ≠ [] → containsM vs name = false → ('.' ∈ name → False) →
      foldStores (setPfx ((lookupM ss name).getD emptyTree) (p ++ name ++ ['.'])) entries =
        Except.ok c2 →
      foldStores (ConfigTree.node p vk sk vs ss)
          (entries.map (fun kv => (name ++ '.' :: kv.1, kv.2))) =
        Except.ok (ConfigTree.node p vk (if containsM ss name then sk else sk ++ [name]) vs
          (insertM name c2 ss)) := by
  intro entries
  induction entries with
  | nil =>
    intro p vk sk vs ss name c2 hne
    exact absurd rfl hne
  | cons kv rest ih =>
    intro p vk sk vs ss name c2 _hne hcv hdot hfold
    rw [foldStores] at hfold
    rcases hsv : setValue (setPfx ((lookupM ss name).getD emptyTree) (p ++ name ++ ['.']))
        kv.1 kv.2 with e | c1
    · rw [hsv] at hfold
      simp only [] at hfold
      exact absurd hfold (by simp)
    · rw [hsv] at hfold
      simp only [] at hfold
      rw [List.map_cons, foldStores]
      simp only []
      rw [graft1 p vk sk vs ss name kv.1 kv.2 hcv hdot]
      rw [setValue] at hsv
      rw [hsv]
      simp only []
      cases rest with
      | nil =>
        rw [List.map_nil, foldStores]
        rw [foldStores] at hfold
        rw [Except.ok.inj hfold]
      | cons r1 r2 =>
        have hpfx1 : c1.pfx = p ++ name ++ ['.'] := by
          have h2 := setValueSeg_pfx (splitDot kv.1) _ c1 kv.2 hsv
          rw [h2, setPfx_pfx]
        have hfold2 : foldStores (setPfx ((lookupM (insertM name c1 ss) name).getD emptyTree)
            (p ++ name ++ ['.'])) (r1 :: r2) = Except.ok c2 := by
          rw [lookupM_insertM_self]
          rw [show (some c1).getD emptyTree = c1 from rfl]
          rw [← hpfx1, setPfx_self]
          exact hfold
        have ihh := ih p vk (if containsM ss name then sk else sk ++ [name]) vs
          (insertM name c1 ss) name c2 (by simp) hcv hdot hfold2
        rw [ihh]
        rw [if_pos (containsM_insertM_self ss name c1), insertM_insertM_self]

/-- Folding the dot-free sorted value entries of one node: the keys land
in the values map in order and the key vector records them in the same
order. -/
theorem foldVals : ∀ (vs : List (Str × Str)) (p : Str) (vk0 : List Str)
    (vs0 : List (Str × Str)),
    (∀ kv ∈ vs, ('.' ∈ kv.1 → False)) →
    pairLtB (vs0.map Prod.fst ++ vs.map Prod.fst) = true →
    foldStores (ConfigTree.node p vk0 [] vs0 []) vs =
      Except.ok (ConfigTree.node p (vk0 ++ vs.map Prod.fst) [] (vs0 ++ vs) []) := by
  intro vs
  induction vs with
  | nil =>
    intro p vk0 vs0 _ _
    rw [foldStores]
    simp
  | cons kv rest ih =>
    intro p vk0 vs0 hdots hpair
    simp only [List.map_cons] at hpair
    have hallold : ∀ x ∈ vs0, ltStr x.1 kv.1 = true := by
      intro x hx
      exact pairLt_split (vs0.map Prod.fst) kv.1 (rest.map Prod.fst) hpair x.1
        (List.mem_map_of_mem Prod.fst hx)
    have hallold2 : ∀ x ∈ vs0.map Prod.fst, ltStr x kv.1 = true := by
      intro x hx
      rcases List.mem_map.mp hx with ⟨y, hy, hxy⟩
      rw [← hxy]
      exact hallold y hy
    have hcont : containsM vs0 kv.1 = false :=
      containsM_lt vs0 kv.1 hallold
    have hsd : splitDot kv.1 = [kv.1] :=
      splitDot_nodot kv.1 (hdots kv (List.mem_cons_self _ _))
    have hsv : setValue (ConfigTree.node p vk0 [] vs0 []) kv.1 kv.2 =
        Except.ok (ConfigTree.node p (vk0 ++ [kv.1]) [] (vs0 ++ [(kv.1, kv.2)]) []) := by
      rw [setValue, hsd, setValueSeg_leaf]
      rw [show hasKeySeg (ConfigTree.node p vk0 [] vs0 []) [kv.1] = Except.ok false from by
        rw [hasKeySeg_leaf]
        rw [if_neg (by simp [ConfigTree.values, hcont])]]
      rw [exbind_ok]
      simp only []
      rw [if_neg (by simp)]
      rw [insertM_allLt vs0 kv.1 kv.2 hallold]
    rw [foldStores]
    rw [hsv]
    simp only []
    have hpair2 : pairLtB ((vs0 ++ [(kv.1, kv.2)]).map Prod.fst ++ rest.map Prod.fst)
        = true := by
      rw [show (vs0 ++ [(kv.1, kv.2)]).map Prod.fst ++ rest.map Prod.fst =
        vs0.map Prod.fst ++ (kv.1 :: rest.map Prod.fst) from by simp]
      exact hpair
    rw [ih p (vk0 ++ [kv.1]) (vs0 ++ [(kv.1, kv.2)])
      (fun x hx => hdots x (List.mem_cons_of_mem _ hx)) hpair2]
    simp [List.append_assoc]

theorem entriesF_shift : ∀ (n : Nat) (p : Str) (t : ConfigTree),
    entriesF n p t = (entriesF n [] t).map (fun kv => (p ++ kv.1, kv.2)) := by
  intro n
  induction n with
  | zero =>
    intro p t
    rfl
  | succ m ih =>
    intro p t
    simp only [entriesF]
    rw [List.map_append]
    congr 1
    · simp [List.map_map]
    · generalize t.subs = ss
      induction ss with
      | nil => rfl
      | cons nc rest ihs =>
        obtain ⟨name, c⟩ := nc
        simp only [entriesSubsF, List.map_append]
        rw [ihs]
        congr 1
        rw [ih (p ++ name ++ ['.']) c, ih ([] ++ name ++ ['.']) c]
        simp [List.map_map, List.append_assoc]

theorem entriesSubsF_ne {f : Str → ConfigTree → List (Str × Str)} :
    ∀ (ss : List (Str × ConfigTree)) (nc : Str × ConfigTree), nc ∈ ss →
      f nc.1 nc.2 ≠ [] → entriesSubsF f ss ≠ [] := by
  intro ss
  induction ss with
  | nil =>
    intro nc h
    simp at h
  | cons nc1 rest ih =>
    intro nc hmem hne
    obtain ⟨n1, c1⟩ := nc1
    rw [entriesSubsF]
    intro hnil
    rcases List.append_eq_nil.mp hnil with ⟨h1, h2⟩
    rcases List.mem_cons.mp hmem with hm | hm
    · subst hm
      exact hne h1
    · exact ih nc hm hne h2

theorem hasValue_entries_ne : ∀ (n : Nat) (t : ConfigTree) (p : Str),
    hasValueN n t = true → entriesF n p t ≠ [] := by
  intro n
  induction n with
  | zero =>
    intro t p h
    rw [hasValueN] at h
    exact absurd h (by simp)
  | succ m ih =>
    intro t p h
    rw [hasValueN, Bool.or_eq_true] at h
    simp only [entriesF]
    intro hnil
    rcases List.append_eq_nil.mp hnil with ⟨h1, h2⟩
    rcases h with h | h
    · rw [List.map_eq_nil] at h1
      rw [h1] at h
      simp at h
    · rw [List.any_eq_true] at h
      rcases h with ⟨nc, hmem, hv⟩
      exact entriesSubsF_ne t.subs nc hmem (ih nc.2 (p ++ nc.1 ++ ['.']) hv) h2

/-- Folding the subtree blocks in map order onto a node that already
holds its values: each child is created once, in order, and ends exactly
rebuilt; the first argument is the rebuild hypothesis at the child
fuel. -/
theorem foldSubs :
    ∀ (m : Nat),
      (∀ (t : ConfigTree) (pE : Str), WFtreeB m pE t = true →
        foldStores (ConfigTree.node pE [] [] [] []) (entriesF m [] t) = Except.ok t) →
      ∀ (ss : List (Str × ConfigTree)) (p : Str) (vk : List Str) (vs : List (Str × Str))
        (sk0 : List Str) (ss0 : List (Str × ConfigTree)),
        (∀ nc ∈ ss, goodNameB nc.1 = true ∧ containsM vs nc.1 = false ∧
          hasValueN m nc.2 = true ∧ WFtreeB m (p ++ nc.1 ++ ['.']) nc.2 = true) →
        (∀ nc ∈ ss0, ∀ nc2 ∈ ss, ltStr nc.1 nc2.1 = true) →
        pairLtB (ss.map Prod.fst) = true →
        foldStores (ConfigTree.node p vk sk0 vs ss0)
            (entriesSubsF (fun name c => entriesF m (name ++ ['.']) c) ss) =
          Except.ok (ConfigTree.node p vk (sk0 ++ ss.map Prod.fst) vs (ss0 ++ ss)) := by
  intro m hreb ss
  induction ss with
  | nil =>
    intro p vk vs sk0 ss0 _ _ _
    rw [entriesSubsF, foldStores]
    simp
  | cons nc rest ih =>
    intro p vk vs sk0 ss0 hconds hold hpair
    obtain ⟨name, c⟩ := nc
    have hgood : goodNameB name = true := by
      simpa using (hconds (name, c) (List.mem_cons_self _ _)).1
    have hcv : containsM vs name = false := by
      simpa using (hconds (name, c) (List.mem_cons_self _ _)).2.1
    have hhv : hasValueN m c = true := by
      simpa using (hconds (name, c) (List.mem_cons_self _ _)).2.2.1
    have hWFc : WFtreeB m (p ++ name ++ ['.']) c = true := by
      simpa using (hconds (name, c) (List.mem_cons_self _ _)).2.2.2
    simp only [List.map_cons] at hpair
    have hdotn : '.' ∈ name → False :=
      fun hd => ((goodNameB_spec hgood).2 '.' hd).2.2.2.1 rfl
    have hallold : ∀ kv ∈ ss0, ltStr kv.1 name = true := by
      intro kv hkv
      simpa using hold kv hkv (name, c) (List.mem_cons_self _ _)
    have hlnone : lookupM ss0 name = none := lookupM_none_of_lt ss0 name hallold
    have hccont : containsM ss0 name = false := containsM_lt ss0 name hallold
    have hchild : foldStores (ConfigTree.node (p ++ name ++ ['.']) [] [] [] [])
        (entriesF m [] c) = Except.ok c := hreb c (p ++ name ++ ['.']) hWFc
    have hshift : entriesF m (name ++ ['.']) c =
        (entriesF m [] c).map (fun kv => (name ++ '.' :: kv.1, kv.2)) := by
      rw [entriesF_shift m (name ++ ['.']) c]
      simp [List.append_assoc]
    have hfold0 : foldStores (setPfx ((lookupM ss0 name).getD emptyTree)
        (p ++ name ++ ['.'])) (entriesF m [] c) = Except.ok c := by
      rw [hlnone]
      rw [show (none : Option ConfigTree).getD emptyTree = emptyTree from rfl]
      rw [show setPfx emptyTree (p ++ name ++ ['.']) =
        ConfigTree.node (p ++ name ++ ['.']) [] [] [] [] from rfl]
      exact hchild
    have hg := graftRun (entriesF m [] c) p vk sk0 vs ss0 name c
      (hasValue_entries_ne m c [] hhv) hcv hdotn hfold0
    rw [if_neg (by rw [hccont]; simp)] at hg
    rw [insertM_allLt ss0 name c hallold] at hg
    simp only [entriesSubsF]
    rw [hshift]
    rw [foldStores_append _ _ _ _ hg]
    have hconds2 : ∀ nc ∈ rest, goodNameB nc.1 = true ∧ containsM vs nc.1 = false ∧
        hasValueN m nc.2 = true ∧ WFtreeB m (p ++ nc.1 ++ ['.']) nc.2 = true :=
      fun nc h => hconds nc (List.mem_cons_of_mem _ h)
    have hold2 : ∀ nc ∈ ss0 ++ [(name, c)], ∀ nc2 ∈ rest, ltStr nc.1 nc2.1 = true := by
      intro nc hnc nc2 hnc2
      rcases List.mem_append.mp hnc with hnc | hnc
      · exact hold nc hnc nc2 (List.mem_cons_of_mem _ hnc2)
      · rcases List.mem_cons.mp hnc with hnc | hnc
        · subst hnc
          rw [pairLtB, Bool.and_eq_true] at hpair
          exact allLt_mem hpair.1 nc2.1 (List.mem_map_of_mem Prod.fst hnc2)
        · simp at hnc
    have hpair2 : pairLtB (rest.map Prod.fst) = true := pairLt_tail _ _ hpair
    rw [ih p vk vs (sk0 ++ [name]) (ss0 ++ [(name, c)]) hconds2 hold2 hpair2]
    simp [List.append_assoc]

/-- Folding a well-formed tree's qualified entries into a bare node with
the tree's prefix rebuilds the tree exactly. -/
theorem rebuild : ∀ (n : Nat) (t : ConfigTree) (pE : Str), WFtreeB n pE t = true →
    foldStores (ConfigTree.node pE [] [] [] []) (entriesF n [] t) = Except.ok t := by
  intro n
  induction n with
  | zero =>
    intro t pE h
    rw [WFtreeB] at h
    exact absurd h (by simp)
  | succ m ih =>
    intro t pE hwf
    obtain ⟨hpfx, hvk, hsk, hpv, hps, hvals, hsubs⟩ := WFtreeB_parts hwf
    cases t with
    | node p0 vk sk vs ss =>
      simp only [ConfigTree.pfx, ConfigTree.valueKeys, ConfigTree.subKeys,
        ConfigTree.values, ConfigTree.subs] at hpfx hvk hsk hpv hps hvals hsubs
      subst hpfx
      subst hvk
      subst hsk
      have hdots : ∀ kv ∈ vs, '.' ∈ kv.1 → False :=
        fun kv hkv hd => ((goodNameB_spec (hvals kv hkv).1).2 '.' hd).2.2.2.1 rfl
      have hfv : foldStores (ConfigTree.node p0 [] [] [] []) vs =
          Except.ok (ConfigTree.node p0 (vs.map Prod.fst) [] vs []) := by
        have h0 := foldVals vs p0 [] [] hdots (by simpa using hpv)
        simpa using h0
      simp only [entriesF, ConfigTree.values, ConfigTree.subs]
      rw [show vs.map (fun kv => (([] : Str) ++ kv.1, kv.2)) = vs from by simp]
      rw [foldStores_append vs _ _ _ hfv]
      simp only [List.nil_append]
      rw [foldSubs m ih ss p0 (vs.map Prod.fst) vs [] [] hsubs
        (fun nc h => absurd h (List.not_mem_nil nc)) hps]
      simp

theorem dotSplit_inj : ∀ (a1 a2 r1 r2 : Str), ('.' ∈ a1 → False) → ('.' ∈ a2 → False) →
    a1 ++ '.' :: r1 = a2 ++ '.' :: r2 → a1 = a2 ∧ r1 = r2 := by
  intro a1
  induction a1 with
  | nil =>
    intro a2 r1 r2 _ h2 he
    cases a2 with
    | nil =>
      simp at he
      exact ⟨rfl, he⟩
    | cons c a22 =>
      rw [List.nil_append, List.cons_append] at he
      have hc := (List.cons.inj he).1
      exact absurd (List.mem_cons.mpr (Or.inl hc)) (fun hm => h2 hm)
  | cons c1 a12 ih =>
    intro a2 r1 r2 h1 h2 he
    cases a2 with
    | nil =>
      rw [List.cons_append, List.nil_append] at he
      have hc := (List.cons.inj he).1
      exact absurd (List.mem_cons.mpr (Or.inl hc.symm)) (fun hm => h1 hm)
    | cons c2 a22 =>
      rw [List.cons_append, List.cons_append] at he
      have hc := (List.cons.inj he).1
      have ht := (List.cons.inj he).2
      rcases ih a22 r1 r2 (fun hm => h1 (List.mem_cons_of_mem c1 hm))
        (fun hm => h2 (List.mem_cons_of_mem c2 hm)) ht with ⟨ha, hr⟩
      constructor
      · rw [hc, ha]
      · exact hr

/-- The keys the subtree blocks contribute are distinct and each starts
with its subtree's name followed by a dot. -/
theorem subsKeys_shape :
    ∀ (m : Nat) (ss : List (Str × ConfigTree)),
      (∀ nc ∈ ss, goodNameB nc.1 = true ∧
        ((entriesF m [] nc.2).map Prod.fst).Nodup) →
      pairLtB (ss.map Prod.fst) = true →
      ((entriesSubsF (fun name c => entriesF m (name ++ ['.']) c) ss).map Prod.fst).Nodup ∧
      (∀ k ∈ (entriesSubsF (fun name c => entriesF m (name ++ ['.']) c) ss).map Prod.fst,
        ∃ nc, nc ∈ ss ∧ ∃ r, k = nc.1 ++ '.' :: r) := by
  intro m ss
  induction ss with
  | nil =>
    intro _ _
    constructor
    · simp [entriesSubsF]
    · intro k hk
      simp [entriesSubsF] at hk
  | cons nc rest ih =>
    intro hconds hpair
    obtain ⟨name, c⟩ := nc
    have hgood : goodNameB name = true := by
      simpa using (hconds (name, c) (List.mem_cons_self _ _)).1
    have hndc : ((entriesF m [] c).map Prod.fst).Nodup := by
      simpa using (hconds (name, c) (List.mem_cons_self _ _)).2
    simp only [List.map_cons] at hpair
    have hdotn : '.' ∈ name → False :=
      fun hd => ((goodNameB_spec hgood).2 '.' hd).2.2.2.1 rfl
    have hconds2 : ∀ nc ∈ rest, goodNameB nc.1 = true ∧
        ((entriesF m [] nc.2).map Prod.fst).Nodup :=
      fun nc h => hconds nc (List.mem_cons_of_mem _ h)
    have hpair2 := pairLt_tail _ _ hpair
    obtain ⟨hnd2, hshape2⟩ := ih hconds2 hpair2
    have hk1 : (entriesF m (name ++ ['.']) c).map Prod.fst =
        ((entriesF m [] c).map Prod.fst).map (fun k => name ++ '.' :: k) := by
      rw [entriesF_shift m (name ++ ['.']) c]
      simp [List.map_map, List.append_assoc]
    have hinj : Function.Injective (fun k : Str => name ++ '.' :: k) := by
      intro a b hab
      simp only [] at hab
      have h2 := List.append_cancel_left hab
      exact (List.cons.inj h2).2
    simp only [entriesSubsF, List.map_append]
    rw [List.nodup_append]
    refine ⟨⟨?_, hnd2, ?_⟩, ?_⟩
    · rw [hk1]
      exact hndc.map hinj
    · intro k hk hk2
      rw [hk1] at hk
      rcases List.mem_map.mp hk with ⟨r, _, hkr⟩
      rcases hshape2 k hk2 with ⟨nc2, hnc2, r2, hkr2⟩
      have hngood2 : goodNameB nc2.1 = true := (hconds2 nc2 hnc2).1
      have hdot2 : '.' ∈ nc2.1 → False :=
        fun hd => ((goodNameB_spec hngood2).2 '.' hd).2.2.2.1 rfl
      have heq : name ++ '.' :: r = nc2.1 ++ '.' :: r2 := by
        rw [hkr, hkr2]
      rcases dotSplit_inj name nc2.1 r r2 hdotn hdot2 heq with ⟨hnn, -⟩
      have hlt := allLt_mem (by rw [pairLtB, Bool.and_eq_true] at hpair; exact hpair.1)
        nc2.1 (List.mem_map_of_mem Prod.fst hnc2)
      rw [← hnn, ltStr_irrefl] at hlt
      exact absurd hlt (by simp)
    · intro k hk
      rcases List.mem_append.mp hk with hk | hk
      · rw [hk1] at hk
        rcases List.mem_map.mp hk with ⟨r, _, hkr⟩
        exact ⟨(name, c), List.mem_cons_self _ _, r, hkr.symm⟩
      · rcases hshape2 k hk with ⟨nc2, hnc2, r2, hkr2⟩
        exact ⟨nc2, List.mem_cons_of_mem _ hnc2, r2, hkr2⟩

/-- A well-formed tree's qualified keys repeat nowhere. -/
theorem entries_nodup : ∀ (n : Nat) (t : ConfigTree) (pE : Str),
    WFtreeB n pE t = true → ((entriesF n [] t).map Prod.fst).Nodup := by
  intro n
  induction n with
  | zero =>
    intro t pE h
    rw [WFtreeB] at h
    exact absurd h (by simp)
  | succ m ih =>
    intro t pE hwf
    obtain ⟨hpfx, hvk, hsk, hpv, hps, hvals, hsubs⟩ := WFtreeB_parts hwf
    simp only [entriesF, List.map_append]
    rw [show (t.values.map (fun kv => (([] : Str) ++ kv.1, kv.2))).map Prod.fst =
      t.values.map Prod.fst from by simp [List.map_map]]
    simp only [List.nil_append]
    rw [List.nodup_append]
    have hsub := subsKeys_shape m t.subs
      (fun nc h => ⟨(hsubs nc h).1, ih nc.2 (pE ++ nc.1 ++ ['.']) (hsubs nc h).2.2.2⟩) hps
    refine ⟨pairLt_nodup _ hpv, hsub.1, ?_⟩
    intro k hk hk2
    rcases hsub.2 k hk2 with ⟨nc2, hnc2, r2, hkr2⟩
    rcases List.mem_map.mp hk with ⟨kv, hkv, hkk⟩
    have hdot : '.' ∈ kv.1 → False :=
      fun hd => ((goodNameB_spec (hvals kv hkv).1).2 '.' hd).2.2.2.1 rfl
    apply hdot
    rw [show kv.1 = k from hkk, hkr2]
    exact List.mem_append_right _ (List.mem_cons_self _ _)

/-- C2, counterexample: a tree reachable through the public write API
whose value holds a comment character does not survive the round trip.
The report line k = "a#b" is cut at the comment character on reparse,
the reopened quote never closes, and the end-of-input quote repair turns
the stored value into a. -/
theorem claim2_counterexample :
    setValue emptyTree (str "k") (str "a#b") =
        Except.ok (ConfigTree.node [] [str "k"] [] [(str "k", str "a#b")] []) ∧
    readINITree (reportF 1 [] (ConfigTree.node [] [str "k"] [] [(str "k", str "a#b")] []))
        emptyTree (str "s") true =
      Except.ok (ConfigTree.node [] [str "k"] [] [(str "k", str "a")] []) ∧
    ¬(str "a" = str "a#b") :=
  ⟨rfl, rfl, by decide⟩

/-- C2: the report → reparse round trip is exact on well-formed trees:
when every node's prefix member is its canonical absolute dotted path,
the key vectors mirror the sorted maps, names avoid whitespace and the
INI metacharacters, values avoid the comment character and line breaks,
no subtree name collides with a value key, and every subtree holds at
least one value, feeding report's lines back through readINITree onto an
empty tree reproduces the tree exactly — including every value, the
getValueKeys and getSubKeys sequences, and the prefix members at every
level. -/
theorem claim2_theorem :
    ∀ (n : Nat) (t : ConfigTree) (src : Str), WFtreeB n [] t = true →
      readINITree (reportF n [] t) emptyTree src true = Except.ok t := by
  intro n t src hwf
  have hpe : ∀ c ∈ ([] : Str), isWs c = false := fun c hc => absurd hc (List.not_mem_nil c)
  obtain ⟨pre3, hv, hg⟩ := traceRun n t [] hwf hpe [] 1
  rw [List.append_nil] at hv hg
  rw [show valTrace 1 [] pre3 = [] from rfl, List.append_nil] at hv
  rw [show goodRun 1 [] pre3 = true from rfl] at hg
  rw [readINITree]
  refine readINIAux_fold _ _ _ _ _ _ src hg ?_ ?_ ?_
  · intro k hk
    exact List.not_mem_nil k
  · rw [keyTrace, hv]
    exact entries_nodup n t [] hwf
  · rw [hv]
    exact rebuild n t [] hwf

/-- C2, witness: a two-level tree (one value, one subtree with one
value) whose report reparses to exactly itself. -/
theorem claim2_witness :
    readINITree (reportF 2 [] (ConfigTree.node [] [str "k"] [str "s"]
        [(str "k", str "v")]
        [(str "s", ConfigTree.node (str "s.") [str "x"] [] [(str "x", str "1")] [])]))
      emptyTree (str "stream") true =
    Except.ok (ConfigTree.node [] [str "k"] [str "s"] [(str "k", str "v")]
      [(str "s", ConfigTree.node (str "s.") [str "x"] [] [(str "x", str "1")] [])]) :=
  claim2_theorem 2 (ConfigTree.node [] [str "k"] [str "s"] [(str "k", str "v")]
    [(str "s", ConfigTree.node (str "s.") [str "x"] [] [(str "x", str "1")] [])])
    (str "stream") (by decide)

end CTP
